import Mathlib

/-!
Verification of the multi-source document processor (divider-based section
splitting, content-addressed hashing, section writing and document
reconstruction).  Text is modeled as `List Char`; each JavaScript string
operation used by the code (`split("\n")`, `join("\n")`, `trim()`,
`replace`, the divider regexes) is embedded as an executable Lean function.
-/

set_option autoImplicit false
set_option maxRecDepth 4000

namespace AugmentVibe

abbrev Str := List Char

deriving instance DecidableEq for Except

/-- Coerce a Lean string literal into the character-list model. -/
def str (s : String) : Str := s.data

/-- The character class matched by JavaScript `\s` and stripped by
`String.prototype.trim`. -/
def jsWhitespace (c : Char) : Bool :=
  let n := c.toNat
  n == 9 || n == 10 || n == 11 || n == 12 || n == 13 || n == 32 || n == 160 ||
  n == 5760 || (8192 ≤ n && n ≤ 8202) || n == 8232 || n == 8233 || n == 8239 ||
  n == 8287 || n == 12288 || n == 65279

/-- JavaScript `String.prototype.trim`: drop whitespace from both ends. -/
def jsTrim (s : Str) : Str :=
  ((s.dropWhile jsWhitespace).reverse.dropWhile jsWhitespace).reverse

/-- Prepend a character to the first line of a line list. -/
def consHead (c : Char) : List Str → List Str
  | [] => [[c]]
  | l :: ls => (c :: l) :: ls

/-- JavaScript `content.split("\n")`. -/
def splitNL : Str → List Str
  | [] => [[]]
  | c :: rest => if c = '\n' then [] :: splitNL rest else consHead c (splitNL rest)

/-- JavaScript `lines.join("\n")`. -/
def joinNL : List Str → Str
  | [] => []
  | [l] => l
  | l :: l' :: ls => l ++ '\n' :: joinNL (l' :: ls)

theorem splitNL_ne_nil (s : Str) : splitNL s ≠ [] := by
  induction s with
  | nil => simp [splitNL]
  | cons c rest ih =>
    simp only [splitNL]
    split
    · simp
    · cases h : splitNL rest with
      | nil => exact absurd h ih
      | cons l ls => simp [consHead]

theorem joinNL_cons (l : Str) (ls : List Str) (h : ls ≠ []) :
    joinNL (l :: ls) = l ++ '\n' :: joinNL ls := by
  cases ls with
  | nil => exact absurd rfl h
  | cons l' ls' => rfl

theorem joinNL_splitNL (s : Str) : joinNL (splitNL s) = s := by
  induction s with
  | nil => rfl
  | cons c rest ih =>
    simp only [splitNL]
    split
    · rename_i hc
      rw [joinNL_cons _ _ (splitNL_ne_nil rest), ih, hc]
      rfl
    · cases h : splitNL rest with
      | nil => exact absurd h (splitNL_ne_nil rest)
      | cons l ls =>
        rw [h] at ih
        cases ls with
        | nil => simpa [consHead, joinNL] using congrArg (c :: ·) ih
        | cons l' ls' =>
          simp only [consHead, joinNL]
          rw [← ih]
          rfl

theorem splitNL_append (x y : Str) :
    splitNL (x ++ '\n' :: y) = splitNL x ++ splitNL y := by
  induction x with
  | nil => simp [splitNL]
  | cons c rest ih =>
    show splitNL (c :: (rest ++ '\n' :: y)) = splitNL (c :: rest) ++ splitNL y
    simp only [splitNL]
    split
    · simp [ih]
    · rw [ih]
      cases h : splitNL rest with
      | nil => exact absurd h (splitNL_ne_nil rest)
      | cons l ls => simp [consHead]

theorem splitNL_no_newline (s : Str) : ∀ l ∈ splitNL s, '\n' ∉ l := by
  induction s with
  | nil => simp [splitNL]
  | cons c rest ih =>
    simp only [splitNL]
    split
    · intro l hl
      rcases List.mem_cons.mp hl with h1 | h1
      · simp [h1]
      · exact ih l h1
    · rename_i hc
      cases h : splitNL rest with
      | nil => exact absurd h (splitNL_ne_nil rest)
      | cons l ls =>
        intro l' hl'
        simp only [consHead] at hl'
        rcases List.mem_cons.mp hl' with h1 | h1
        · subst h1
          intro hmem
          rcases List.mem_cons.mp hmem with h2 | h2
          · exact hc h2.symm
          · exact ih l (h ▸ List.mem_cons_self _ _) h2
        · exact ih l' (h ▸ List.mem_cons_of_mem _ h1)

theorem splitNL_of_no_newline (l : Str) (hl : '\n' ∉ l) : splitNL l = [l] := by
  induction l with
  | nil => rfl
  | cons c cs ihc =>
    simp only [splitNL]
    rw [if_neg (by intro hc; exact hl (hc ▸ List.mem_cons_self _ _))]
    rw [ihc (by intro hm; exact hl (List.mem_cons_of_mem _ hm))]
    rfl

theorem splitNL_joinNL (ls : List Str) (hne : ls ≠ [])
    (hnl : ∀ l ∈ ls, '\n' ∉ l) : splitNL (joinNL ls) = ls := by
  induction ls with
  | nil => exact absurd rfl hne
  | cons l ls ih =>
    cases ls with
    | nil =>
      show splitNL (joinNL [l]) = [l]
      simp only [joinNL]
      exact splitNL_of_no_newline l (hnl l (List.mem_cons_self _ _))
    | cons l' ls' =>
      rw [joinNL_cons _ _ (by simp), splitNL_append,
        ih (by simp) (fun a ha => hnl a (List.mem_cons_of_mem _ ha)),
        splitNL_of_no_newline l (hnl l (List.mem_cons_self _ _))]
      rfl

theorem joinNL_append (a b : List Str) (ha : a ≠ []) (hb : b ≠ []) :
    joinNL (a ++ b) = joinNL a ++ '\n' :: joinNL b := by
  induction a with
  | nil => exact absurd rfl ha
  | cons l ls ih =>
    cases ls with
    | nil =>
      rw [List.singleton_append, joinNL_cons _ _ hb]
      rfl
    | cons l' ls' =>
      rw [List.cons_append, joinNL_cons _ _ (by simp),
        joinNL_cons _ _ (by simp), ih (by simp)]
      simp

/-! ### FileProcessor.splitContent (src: FileProcessor, `fileProcessor.js`) -/

/-- The bare divider regex `/^---:\s*$/`. -/
def dividerPattern (l : Str) : Bool :=
  match l with
  | '-' :: '-' :: '-' :: ':' :: rest => rest.all jsWhitespace
  | _ => false

/-- A document section as produced by `FileProcessor.splitContent`. -/
structure Sect where
  index : Nat
  content : Str
  hasDivider : Bool
  originalDividerLine : Option Str
  lineStart : Nat
  lineEnd : Nat
deriving DecidableEq, Repr, Inhabited

/-- The line scan of `FileProcessor.splitContent`: `i` is the number of lines
already consumed, `cur` the accumulated lines of the current section,
`hd`/`dl` the divider tracking, `sidx` the next section index. -/
def splitLoop : List Str → Nat → List Str → Bool → Option Str → Nat → List Sect
  | [], i, cur, hd, dl, sidx =>
    if cur.isEmpty then []
    else [⟨sidx, joinNL cur, hd, dl, i - cur.length + 1, i⟩]
  | l :: rest, i, cur, hd, dl, sidx =>
    if dividerPattern l then
      if cur.isEmpty then
        splitLoop rest (i+1) [l] true (some l) sidx
      else
        ⟨sidx, joinNL cur, hd, dl, i - cur.length + 1, i⟩ ::
          splitLoop rest (i+1) [l] true (some l) (sidx+1)
    else
      splitLoop rest (i+1) (cur ++ [l]) hd dl sidx

/-- `FileProcessor.splitContent`. -/
def splitContent (content : Str) : List Sect :=
  if content.isEmpty then [] else splitLoop (splitNL content) 0 [] false none 0

theorem splitLoop_ne_nil (rest : List Str) :
    ∀ i cur hd dl sidx, cur ≠ [] → splitLoop rest i cur hd dl sidx ≠ [] := by
  induction rest with
  | nil =>
    intro i cur hd dl sidx hcur
    simp [splitLoop, List.isEmpty_iff, hcur]
  | cons l rest ih =>
    intro i cur hd dl sidx hcur
    simp only [splitLoop]
    split
    · rw [if_neg (by simpa [List.isEmpty_iff] using hcur)]
      simp
    · exact ih (i+1) (cur ++ [l]) hd dl sidx (by simp)

theorem splitLoop_join (rest : List Str) :
    ∀ i cur hd dl sidx, cur ≠ [] →
      joinNL ((splitLoop rest i cur hd dl sidx).map Sect.content) =
        joinNL (cur ++ rest) := by
  induction rest with
  | nil =>
    intro i cur hd dl sidx hcur
    simp [splitLoop, List.isEmpty_iff, hcur, joinNL]
  | cons l rest ih =>
    intro i cur hd dl sidx hcur
    simp only [splitLoop]
    split
    · rw [if_neg (by simpa [List.isEmpty_iff] using hcur)]
      simp only [List.map_cons]
      rw [joinNL_cons _ _ (by
          simp only [ne_eq, List.map_eq_nil_iff]
          exact splitLoop_ne_nil rest (i+1) [l] true (some l) (sidx+1) (by simp)),
        ih (i+1) [l] true (some l) (sidx+1) (by simp),
        joinNL_append cur (l :: rest) hcur (by simp)]
      rfl
    · rw [ih (i+1) (cur ++ [l]) hd dl sidx (by simp)]
      simp

/-- **C1**: for every string `T`, joining the `content` fields of
`splitContent T` with a single `"\n"` reproduces `T` exactly (in particular
for every `T` that contains a bare divider line). -/
theorem splitContent_join (T : Str) :
    joinNL ((splitContent T).map Sect.content) = T := by
  unfold splitContent
  split
  · rename_i h
    rw [List.isEmpty_iff] at h
    simp [h, joinNL]
  · rename_i h
    cases hs : splitNL T with
    | nil => exact absurd hs (splitNL_ne_nil T)
    | cons l0 ls =>
      have hjoin : joinNL (l0 :: ls) = T := by rw [← hs, joinNL_splitNL]
      simp only [splitLoop, List.isEmpty_nil, if_true]
      split
      · rw [splitLoop_join ls (0+1) [l0] true (some l0) 0 (by simp)]
        simpa using hjoin
      · rw [show ([] : List Str) ++ [l0] = [l0] from rfl,
          splitLoop_join ls (0+1) [l0] false none 0 (by simp)]
        simpa using hjoin

theorem splitLoop_cover (rest : List Str) :
    ∀ i cur hd dl sidx, cur ≠ [] → cur.length ≤ i →
      splitLoop rest i cur hd dl sidx ≠ [] ∧
      ((splitLoop rest i cur hd dl sidx).getD 0 default).lineStart =
        i - cur.length + 1 ∧
      (∀ k, k + 1 < (splitLoop rest i cur hd dl sidx).length →
        ((splitLoop rest i cur hd dl sidx).getD (k+1) default).lineStart =
          ((splitLoop rest i cur hd dl sidx).getD k default).lineEnd + 1) ∧
      ((splitLoop rest i cur hd dl sidx).getD
          ((splitLoop rest i cur hd dl sidx).length - 1) default).lineEnd =
        i + rest.length ∧
      (∀ k, k < (splitLoop rest i cur hd dl sidx).length →
        ((splitLoop rest i cur hd dl sidx).getD k default).index = sidx + k) := by
  induction rest with
  | nil =>
    intro i cur hd dl sidx hcur hlen
    simp only [splitLoop, List.isEmpty_iff, if_neg hcur]
    refine ⟨by simp, by simp, ?_, by simp, ?_⟩
    · intro k hk
      simp at hk
    · intro k hk
      simp only [List.length_singleton] at hk
      interval_cases k
      simp
  | cons l rest ih =>
    intro i cur hd dl sidx hcur hlen
    simp only [splitLoop]
    split
    · rw [if_neg (by simpa [List.isEmpty_iff] using hcur)]
      obtain ⟨h1, h2, h3, h4, h5⟩ :=
        ih (i+1) [l] true (some l) (sidx+1) (by simp) (by simp)
      have hlen1 : 0 < (splitLoop rest (i+1) [l] true (some l) (sidx+1)).length :=
        List.length_pos.mpr h1
      refine ⟨by simp, by simp, ?_, ?_, ?_⟩
      · intro k hk
        cases k with
        | zero =>
          simp only [List.getD_cons_succ, List.getD_cons_zero]
          rw [h2]
          simp
        | succ k' =>
          simp only [List.getD_cons_succ]
          exact h3 k' (by simpa using Nat.lt_of_succ_lt_succ hk)
      · simp only [List.length_cons, Nat.add_sub_cancel]
        rcases Nat.exists_eq_add_of_lt hlen1 with ⟨m, hm⟩
        have hm' : (splitLoop rest (i+1) [l] true (some l) (sidx+1)).length = m + 1 := by
          omega
        rw [hm', Nat.add_sub_cancel] at h4
        rw [hm', List.getD_cons_succ, h4]
        omega
      · intro k hk
        cases k with
        | zero => simp
        | succ k' =>
          simp only [List.getD_cons_succ]
          rw [h5 k' (by simpa using Nat.lt_of_succ_lt_succ hk)]
          omega
    · obtain ⟨h1, h2, h3, h4, h5⟩ :=
        ih (i+1) (cur ++ [l]) hd dl sidx (by simp) (by simpa using Nat.succ_le_succ hlen)
      refine ⟨h1, ?_, h3, ?_, h5⟩
      · rw [h2]
        simp only [List.length_append, List.length_singleton]
        omega
      · rw [h4]
        simp only [List.length_cons]
        omega

/-- **C8**: for every non-empty string `T`, the sections of `splitContent T`
cover the line numbers of `T` contiguously and in order: the first
`lineStart` is `1`, each subsequent `lineStart` is the previous `lineEnd + 1`,
the last `lineEnd` is the total number of lines of `T`, and the `index`
fields are `0, 1, 2, ...` in declaration order. -/
theorem splitContent_cover (T : Str) (hT : T ≠ []) :
    splitContent T ≠ [] ∧
    ((splitContent T).getD 0 default).lineStart = 1 ∧
    (∀ k, k + 1 < (splitContent T).length →
      ((splitContent T).getD (k+1) default).lineStart =
        ((splitContent T).getD k default).lineEnd + 1) ∧
    ((splitContent T).getD ((splitContent T).length - 1) default).lineEnd =
      (splitNL T).length ∧
    (∀ k, k < (splitContent T).length →
      ((splitContent T).getD k default).index = k) := by
  have hne : ¬T.isEmpty := by simpa [List.isEmpty_iff] using hT
  unfold splitContent
  rw [if_neg hne]
  cases hs : splitNL T with
  | nil => exact absurd hs (splitNL_ne_nil T)
  | cons l0 ls =>
    simp only [splitLoop, List.isEmpty_nil, if_true]
    split
    · obtain ⟨h1, h2, h3, h4, h5⟩ :=
        splitLoop_cover ls (0+1) [l0] true (some l0) 0 (by simp) (by simp)
      refine ⟨h1, by simpa using h2, h3, ?_, by simpa using h5⟩
      simp only [Nat.zero_add] at h4 ⊢
      simp only [List.length_cons]
      omega
    · rw [show ([] : List Str) ++ [l0] = [l0] from rfl]
      obtain ⟨h1, h2, h3, h4, h5⟩ :=
        splitLoop_cover ls (0+1) [l0] false none 0 (by simp) (by simp)
      refine ⟨h1, by simpa using h2, h3, ?_, by simpa using h5⟩
      simp only [Nat.zero_add] at h4 ⊢
      simp only [List.length_cons]
      omega

/-- **C8 witness**: the covering invariants at the concrete input
`"A\n---:\nB"`. -/
theorem splitContent_cover_witness :
    splitContent (str "A\n---:\nB") ≠ [] ∧
    ((splitContent (str "A\n---:\nB")).getD 0 default).lineStart = 1 ∧
    ((splitContent (str "A\n---:\nB")).getD
      ((splitContent (str "A\n---:\nB")).length - 1) default).lineEnd =
      (splitNL (str "A\n---:\nB")).length :=
  ⟨(splitContent_cover (str "A\n---:\nB") (by decide)).1,
   (splitContent_cover (str "A\n---:\nB") (by decide)).2.1,
   (splitContent_cover (str "A\n---:\nB") (by decide)).2.2.2.1⟩

/-! ### Divider and reference patterns (src: `documentReconstructor.js`) -/

def isAsciiDigit (c : Char) : Bool := 48 ≤ c.toNat && c.toNat ≤ 57

def isHexChar (c : Char) : Bool :=
  (48 ≤ c.toNat && c.toNat ≤ 57) || (65 ≤ c.toNat && c.toNat ≤ 70) ||
  (97 ≤ c.toNat && c.toNat ≤ 102)

def isUpperHexChar (c : Char) : Bool :=
  (48 ≤ c.toNat && c.toNat ≤ 57) || (65 ≤ c.toNat && c.toNat ≤ 70)

/-- JavaScript `toUpperCase` on the ASCII range (the only characters the
code upper-cases are hex digits). -/
def upChar (c : Char) : Char :=
  if 'a' ≤ c && c ≤ 'z' then Char.ofNat (c.toNat - 32) else c

/-- Consume `\d{2}` at the head of a string. -/
def twoDigits : Str → Option Str
  | a :: b :: rest => if isAsciiDigit a && isAsciiDigit b then some rest else none
  | _ => none

/-- Consume a literal character at the head of a string. -/
def matchChar (c : Char) : Str → Option Str
  | c' :: rest => if c' = c then some rest else none
  | [] => none

/-- Consume `\d{2}:\d{2}:\d{2}\s+\d{4}/\d{2}/\d{2}` at the head of a
string, returning the remainder. -/
def matchTimestamp (s : Str) : Option Str := do
  let r1 ← twoDigits s
  let r2 ← matchChar ':' r1
  let r3 ← twoDigits r2
  let r4 ← matchChar ':' r3
  let r5 ← twoDigits r4
  match r5 with
  | c :: _ =>
    if jsWhitespace c then do
      let r6 := r5.dropWhile jsWhitespace
      let r7 ← twoDigits r6
      let r8 ← twoDigits r7
      let r9 ← matchChar '/' r8
      let r10 ← twoDigits r9
      let r11 ← matchChar '/' r10
      twoDigits r11
    else none
  | [] => none

/-- Strip the leading `---:` of the annotated-divider regexes, returning
the remainder of the line. -/
def stripDividerColon : Str → Option Str
  | a :: b :: c :: d :: rest =>
    if a = '-' && b = '-' && c = '-' && d = ':' then some rest else none
  | _ => none

/-- The reference-divider regex
`/^---:\s+([A-F0-9]+)(?:\s+(\d{2}:\d{2}:\d{2}\s+\d{4}\/\d{2}\/\d{2}))?$/i`
(`DocumentReconstructor.referencePattern`): returns the captured hash (as
written) and whether the optional timestamp group matched. -/
def parseAnnotatedDivider (l : Str) : Option (Str × Bool) :=
  match stripDividerColon l with
  | none => none
  | some rest =>
    match rest with
    | [] => none
    | c :: _ =>
      if jsWhitespace c then
        let r1 := rest.dropWhile jsWhitespace
        let hash := r1.takeWhile isHexChar
        let r2 := r1.dropWhile isHexChar
        if hash.isEmpty then none
        else
          match r2 with
          | [] => some (hash, false)
          | c2 :: _ =>
            if jsWhitespace c2 then
              match matchTimestamp (r2.dropWhile jsWhitespace) with
              | some [] => some (hash, true)
              | _ => none
            else none
      else none

/-- The enhanced-divider regex
`/^---:\s+[A-F0-9]+\s+\d{2}:\d{2}:\d{2}\s+\d{4}\/\d{2}\/\d{2}$/i`
of `DocumentReconstructor.cleanReferencedContent` (hash and timestamp both
mandatory). -/
def enhancedDividerPattern (l : Str) : Bool :=
  match stripDividerColon l with
  | none => false
  | some rest =>
    match rest with
    | [] => false
    | c :: _ =>
      jsWhitespace c &&
        (let r1 := rest.dropWhile jsWhitespace
         let hash := r1.takeWhile isHexChar
         let r2 := r1.dropWhile isHexChar
         !hash.isEmpty &&
           match r2 with
           | [] => false
           | c2 :: _ =>
             jsWhitespace c2 &&
               match matchTimestamp (r2.dropWhile jsWhitespace) with
               | some [] => true
               | _ => false)

theorem enhanced_iff_parse (l : Str) :
    enhancedDividerPattern l = true ↔
      ∃ h, parseAnnotatedDivider l = some (h, true) := by
  unfold enhancedDividerPattern parseAnnotatedDivider
  cases hs : stripDividerColon l with
  | none => simp
  | some rest =>
    cases rest with
    | nil => simp
    | cons c rest' =>
      by_cases hc : jsWhitespace c
      · simp only [hc, if_true, Bool.true_and]
        by_cases hh : ((c :: rest').dropWhile jsWhitespace).takeWhile isHexChar = []
        · rw [if_pos (by simpa using hh)]
          simp [List.isEmpty_iff, hh]
        · rw [if_neg (by simpa using hh)]
          have hh' : (((c :: rest').dropWhile jsWhitespace).takeWhile isHexChar).isEmpty
              = false := by
            simpa [List.isEmpty_iff] using hh
          simp only [hh', Bool.not_false, Bool.true_and]
          rcases h2 : ((c :: rest').dropWhile jsWhitespace).dropWhile isHexChar with
            _ | ⟨c2, r2'⟩
          · simp
          · by_cases hc2 : jsWhitespace c2
            · simp only [hc2, if_true, Bool.true_and]
              rcases h3 : matchTimestamp ((c2 :: r2').dropWhile jsWhitespace) with
                _ | ⟨_ | _⟩ <;> simp
            · simp [hc2]
      · simp [hc]

/-! ### DocumentReconstructor.cleanReferencedContent -/

/-- `DocumentReconstructor.cleanReferencedContent`: if the first line is an
enhanced divider, replace it by the bare divider `---:`. -/
def cleanReferencedContent (content : Str) : Str :=
  match splitNL content with
  | [] => content
  | first :: restLines =>
    if enhancedDividerPattern first then joinNL (str "---:" :: restLines)
    else joinNL (first :: restLines)

/-! ### DocumentReconstructor.extractReferences -/

structure Reference where
  hash : Str
  originalLine : Str
  lineNumber : Nat
deriving DecidableEq, Repr

structure ExtractResult where
  baseContent : Str
  references : List Reference
deriving DecidableEq, Repr

/-- First pass of `extractReferences`: collect every matching line with its
uppercased hash and 1-based line number (`i` counts lines already seen). -/
def collectRefs : List Str → Nat → List Reference
  | [], _ => []
  | l :: rest, i =>
    match parseAnnotatedDivider l with
    | some (h, _) => ⟨h.map upChar, l, i + 1⟩ :: collectRefs rest (i+1)
    | none => collectRefs rest (i+1)

/-- The `referenceStartIndex` of the first pass: 0-based index of the first
matching line. -/
def firstRefIndex : List Str → Nat → Option Nat
  | [], _ => none
  | l :: rest, i =>
    if (parseAnnotatedDivider l).isSome then some i else firstRefIndex rest (i+1)

/-- The backwards walk over blank lines preceding the first reference. -/
def backOverBlanks (lines : List Str) : Nat → Nat
  | 0 => 0
  | k+1 => if jsTrim (lines.getD k []) = [] then backOverBlanks lines k else k+1

/-- `DocumentReconstructor.extractReferences`. -/
def extractReferences (content : Str) : ExtractResult :=
  let lines := splitNL content
  let references := collectRefs lines 0
  match firstRefIndex lines 0 with
  | none => ⟨jsTrim content, []⟩
  | some refStart =>
    let actualStart := backOverBlanks lines refStart
    ⟨jsTrim (joinNL (lines.take actualStart)), references⟩

/-! ### StreamingFileProcessor.extractSection -/

/-- `StreamingFileProcessor.extractSection` as a pure function over the
file's lines: inclusive 1-based range, with the code's invalid-range
check. -/
def extractSection (lines : List Str) (startLine endLine : Int) : Except Str Str :=
  if startLine < 1 || endLine < startLine then .error (str "Invalid line range")
  else .ok (joinNL ((List.enumFrom 1 lines).filterMap fun p =>
    if (startLine ≤ (p.1 : Int) ∧ (p.1 : Int) ≤ endLine) then some p.2 else none))

/-! ### Lemmas about reference extraction -/

theorem collectRefs_eq_enumFrom (lines : List Str) :
    ∀ i, collectRefs lines i =
      (List.enumFrom i lines).filterMap fun p =>
        (parseAnnotatedDivider p.2).map fun q => ⟨q.1.map upChar, p.2, p.1 + 1⟩ := by
  induction lines with
  | nil => intro i; rfl
  | cons l rest ih =>
    intro i
    simp only [List.enumFrom, List.filterMap_cons, collectRefs]
    cases hp : parseAnnotatedDivider l with
    | none => simpa using ih (i+1)
    | some q =>
      obtain ⟨h, b⟩ := q
      simpa using ih (i+1)

theorem collectRefs_chain (lines : List Str) :
    ∀ i, List.Chain' (fun a b => a.lineNumber < b.lineNumber) (collectRefs lines i) ∧
      ∀ r ∈ collectRefs lines i, i + 1 ≤ r.lineNumber := by
  induction lines with
  | nil => intro i; simp [collectRefs]
  | cons l rest ih =>
    intro i
    simp only [collectRefs]
    cases hp : parseAnnotatedDivider l with
    | none =>
      obtain ⟨h1, h2⟩ := ih (i+1)
      exact ⟨h1, fun r hr => Nat.le_of_succ_le (h2 r hr)⟩
    | some q =>
      obtain ⟨h, b⟩ := q
      obtain ⟨h1, h2⟩ := ih (i+1)
      constructor
      · apply List.chain'_cons'.mpr
        refine ⟨?_, h1⟩
        intro r hr
        have := h2 r (List.mem_of_mem_head? hr)
        simpa using this
      · intro r hr
        rcases List.mem_cons.mp hr with h3 | h3
        · simp [h3]
        · exact Nat.le_of_succ_le (h2 r h3)

theorem firstRefIndex_none_all (lines : List Str) :
    ∀ i, firstRefIndex lines i = none →
      ∀ l ∈ lines, parseAnnotatedDivider l = none := by
  induction lines with
  | nil => simp
  | cons l rest ih =>
    intro i hfi l' hl'
    simp only [firstRefIndex] at hfi
    split at hfi
    · exact absurd hfi (by simp)
    · rcases List.mem_cons.mp hl' with h1 | h1
      · subst h1
        rename_i hns
        simpa using hns
      · exact ih (i+1) hfi l' h1

theorem collectRefs_nil_of_none (lines : List Str) :
    ∀ i, firstRefIndex lines i = none → collectRefs lines i = [] := by
  induction lines with
  | nil => intro i _; rfl
  | cons l rest ih =>
    intro i hfi
    simp only [firstRefIndex] at hfi
    split at hfi
    · exact absurd hfi (by simp)
    · rename_i hns
      simp only [collectRefs]
      cases hp : parseAnnotatedDivider l with
      | none => exact ih (i+1) hfi
      | some q => exact absurd (by simp [hp]) hns

theorem firstRefIndex_ge (lines : List Str) :
    ∀ i j, firstRefIndex lines i = some j → i ≤ j := by
  induction lines with
  | nil => simp [firstRefIndex]
  | cons l rest ih =>
    intro i j hfi
    simp only [firstRefIndex] at hfi
    split at hfi
    · simp at hfi
      omega
    · exact Nat.le_of_succ_le (ih (i+1) j hfi)

theorem firstRefIndex_take_none (lines : List Str) :
    ∀ i j, firstRefIndex lines i = some j →
      ∀ l ∈ lines.take (j - i), parseAnnotatedDivider l = none := by
  induction lines with
  | nil => simp
  | cons l rest ih =>
    intro i j hfi l' hl'
    simp only [firstRefIndex] at hfi
    split at hfi
    · simp at hfi
      subst hfi
      simp at hl'
    · rename_i hns
      have hij : i + 1 ≤ j := firstRefIndex_ge rest (i+1) j hfi
      have : (l :: rest).take (j - i) = l :: rest.take (j - (i+1)) := by
        have : j - i = (j - (i+1)) + 1 := by omega
        rw [this, List.take_succ_cons]
      rw [this] at hl'
      rcases List.mem_cons.mp hl' with h1 | h1
      · subst h1
        simpa using hns
      · exact ih (i+1) j hfi l' h1

theorem backOverBlanks_le (lines : List Str) : ∀ k, backOverBlanks lines k ≤ k := by
  intro k
  induction k with
  | zero => simp [backOverBlanks]
  | succ k ih =>
    simp only [backOverBlanks]
    split
    · omega
    · omega

/-- Following the spec's words: collect every line matching the
reference-divider pattern, recording the hash converted to uppercase and
the 1-based line number, in order of appearance. -/
def specCollectReferences (content : Str) : List Reference :=
  (splitNL content).enum.filterMap fun p =>
    (parseAnnotatedDivider p.2).map fun q => ⟨q.1.map upChar, p.2, p.1 + 1⟩

/-- **C6**: `extractReferences` on `"Intro\n\n---: ABCD1234\n---: EFAB5678"`
returns references `ABCD1234`, `EFAB5678` (line numbers 3 and 4) with base
content `"Intro"`; and in general the references are exactly the lines
matching the reference-divider pattern, with uppercased hash and 1-based
line number, in order of appearance. -/
theorem extractReferences_example_and_references :
    extractReferences (str "Intro\n\n---: ABCD1234\n---: EFAB5678") =
      ⟨str "Intro",
       [⟨str "ABCD1234", str "---: ABCD1234", 3⟩,
        ⟨str "EFAB5678", str "---: EFAB5678", 4⟩]⟩ ∧
    ∀ content, (extractReferences content).references =
      specCollectReferences content := by
  constructor
  · decide
  · intro content
    have hrefs : (extractReferences content).references =
        collectRefs (splitNL content) 0 := by
      simp only [extractReferences]
      cases hfi : firstRefIndex (splitNL content) 0 with
      | none => simp [collectRefs_nil_of_none (splitNL content) 0 hfi]
      | some refStart => simp
    rw [hrefs]
    unfold specCollectReferences
    rw [List.enum, ← collectRefs_eq_enumFrom]

/-- **C10 counterexample**: for the content
`"  ---: ABCD1234\nx\n---: EFAB5678"` (whose first line has leading spaces
and therefore does not itself match the reference-divider pattern), the
final `trim` of the base content exposes a line that does match the
pattern, contradicting the claim that no line of the returned
`baseContent` matches. -/
theorem extractReferences_baseContent_can_match :
    ((splitNL (extractReferences
        (str "  ---: ABCD1234\nx\n---: EFAB5678")).baseContent).any
      fun l => (parseAnnotatedDivider l).isSome) = true := by decide

/-- **C10 (amended)**: the reference list of `extractReferences` has
strictly increasing line numbers, and the base content is the JS-trim of
the join of a prefix of the content's lines, none of which matches the
reference-divider pattern (the final trim may expose a matching line by
stripping surrounding whitespace, as the counterexample shows). -/
theorem extractReferences_invariants (content : Str) :
    List.Chain' (fun a b => a.lineNumber < b.lineNumber)
      (extractReferences content).references ∧
    ∃ baseLines, baseLines <+: splitNL content ∧
      (extractReferences content).baseContent = jsTrim (joinNL baseLines) ∧
      ∀ l ∈ baseLines, parseAnnotatedDivider l = none := by
  constructor
  · have hrefs : (extractReferences content).references =
        collectRefs (splitNL content) 0 := by
      simp only [extractReferences]
      cases hfi : firstRefIndex (splitNL content) 0 with
      | none => simp [collectRefs_nil_of_none (splitNL content) 0 hfi]
      | some refStart => simp
    rw [hrefs]
    exact (collectRefs_chain (splitNL content) 0).1
  · simp only [extractReferences]
    cases hfi : firstRefIndex (splitNL content) 0 with
    | none =>
      refine ⟨splitNL content, List.prefix_refl _, ?_, ?_⟩
      · simp [joinNL_splitNL]
      · exact firstRefIndex_none_all (splitNL content) 0 hfi
    | some refStart =>
      refine ⟨(splitNL content).take (backOverBlanks (splitNL content) refStart),
        List.take_prefix _ _, by simp, ?_⟩
      intro l hl
      have hble : backOverBlanks (splitNL content) refStart ≤ refStart :=
        backOverBlanks_le (splitNL content) refStart
      have : l ∈ (splitNL content).take refStart := by
        have := List.take_take (backOverBlanks (splitNL content) refStart) refStart
          (splitNL content)
        rw [Nat.min_eq_left hble] at this
        rw [← this] at hl
        exact List.take_subset _ _ hl
      have h0 := firstRefIndex_take_none (splitNL content) 0 refStart hfi
      simpa using h0 l (by simpa using this)

/-- **C10 witness**: the amended invariants at a concrete anchor content. -/
theorem extractReferences_invariants_witness :
    List.Chain' (fun a b => a.lineNumber < b.lineNumber)
      (extractReferences (str "Intro\n\n---: ABCD1234\n---: EFAB5678")).references :=
  (extractReferences_invariants (str "Intro\n\n---: ABCD1234\n---: EFAB5678")).1

/-- **C9**: `cleanReferencedContent` replaces the first line by the bare
divider `---:` exactly when that line matches the enhanced-divider pattern
(hash and timestamp both present, case-insensitive); a leading divider with
a hash but no timestamp is left untouched, and the lines after the first
are always returned unchanged. -/
theorem cleanReferencedContent_spec (content : Str) :
    (enhancedDividerPattern ((splitNL content).headI) = true →
      cleanReferencedContent content =
        joinNL (str "---:" :: (splitNL content).tail)) ∧
    (enhancedDividerPattern ((splitNL content).headI) = false →
      cleanReferencedContent content = content) ∧
    (∀ h, parseAnnotatedDivider ((splitNL content).headI) = some (h, false) →
      cleanReferencedContent content = content) ∧
    (enhancedDividerPattern ((splitNL content).headI) = true ↔
      ∃ h, parseAnnotatedDivider ((splitNL content).headI) = some (h, true)) := by
  cases hs : splitNL content with
  | nil => exact absurd hs (splitNL_ne_nil content)
  | cons first restLines =>
    have hclean : cleanReferencedContent content =
        (if enhancedDividerPattern first then joinNL (str "---:" :: restLines)
         else joinNL (first :: restLines)) := by
      unfold cleanReferencedContent
      rw [hs]
    have hjoin : joinNL (first :: restLines) = content := by
      rw [← hs, joinNL_splitNL]
    refine ⟨?_, ?_, ?_, ?_⟩
    · intro he
      simp only [List.headI] at he
      rw [hclean, if_pos he]
      simp
    · intro he
      simp only [List.headI] at he
      rw [hclean, if_neg (by simp [he]), hjoin]
    · intro h hp
      simp only [List.headI] at hp
      have he : enhancedDividerPattern first = false := by
        by_contra hne
        have := (enhanced_iff_parse first).mp (by simpa using hne)
        obtain ⟨h', hp'⟩ := this
        rw [hp] at hp'
        simp at hp'
      rw [hclean, if_neg (by simp [he]), hjoin]
    · simpa using enhanced_iff_parse first

/-- **C9 witness**: a concrete enhanced-divider first line is rewritten to
the bare divider, and a hash-only first line is left untouched. -/
theorem cleanReferencedContent_spec_witness :
    cleanReferencedContent (str "---: ABCD1234 12:00:00 2024/01/02\nBody") =
      joinNL (str "---:" ::
        (splitNL (str "---: ABCD1234 12:00:00 2024/01/02\nBody")).tail) ∧
    cleanReferencedContent (str "---: ABCD1234\nBody") =
      str "---: ABCD1234\nBody" := by
  constructor
  · exact (cleanReferencedContent_spec
      (str "---: ABCD1234 12:00:00 2024/01/02\nBody")).1 (by decide)
  · exact ((cleanReferencedContent_spec (str "---: ABCD1234\nBody")).2.2.1
      (str "ABCD1234") (by decide))

/-! ### Lemmas for extractSection -/

theorem filterMap_range_eq (lines : List Str) :
    ∀ (n : Nat) (s e : Int), 0 ≤ s → s ≤ e →
      ((List.enumFrom n lines).filterMap fun p =>
        if (s ≤ (p.1 : Int) ∧ (p.1 : Int) ≤ e) then some p.2 else none) =
      (lines.drop (s.toNat - n)).take (e.toNat + 1 - max s.toNat n) := by
  induction lines with
  | nil => intro n s e hs hse; simp [List.enumFrom]
  | cons l rest ih =>
    intro n s e hs hse
    simp only [List.enumFrom, List.filterMap_cons]
    by_cases hcond : (s ≤ (n : Int) ∧ (n : Int) ≤ e)
    · rw [if_pos hcond]
      obtain ⟨h1, h2⟩ := hcond
      rw [ih (n+1) s e hs hse]
      have hd : s.toNat - n = 0 := by omega
      have hd' : s.toNat - (n+1) = 0 := by omega
      have ht : e.toNat + 1 - max s.toNat n = (e.toNat - n) + 1 := by omega
      have ht' : e.toNat + 1 - max s.toNat (n+1) = e.toNat - n := by omega
      rw [hd, hd', ht, ht']
      simp [List.take_succ_cons]
    · rw [if_neg hcond]
      rw [ih (n+1) s e hs hse]
      rcases not_and_or.mp hcond with h1 | h1
      · have h1' : (n : Int) < s := by omega
        have hd : s.toNat - n = (s.toNat - (n+1)) + 1 := by omega
        have ht : max s.toNat n = s.toNat := by omega
        have ht' : max s.toNat (n+1) = s.toNat := by omega
        rw [hd, ht, ht']
        simp [List.drop_succ_cons]
      · have h1' : e < (n : Int) := by omega
        have ht : e.toNat + 1 - max s.toNat n = 0 := by omega
        have ht' : e.toNat + 1 - max s.toNat (n+1) = 0 := by omega
        rw [ht, ht']
        simp

/-- **C7**: `extractSection` fails with the invalid-range error when
`endLine < startLine` or `startLine < 1`, and for every valid inclusive
1-based range within the file returns exactly the lines `startLine`
through `endLine` joined with `"\n"`. -/
theorem extractSection_spec (lines : List Str) (s e : Int) :
    ((s < 1 ∨ e < s) → extractSection lines s e = .error (str "Invalid line range")) ∧
    (1 ≤ s → s ≤ e → e ≤ (lines.length : Int) →
      extractSection lines s e =
        .ok (joinNL ((lines.drop (s - 1).toNat).take (e - s + 1).toNat))) := by
  constructor
  · intro h
    unfold extractSection
    split
    · rfl
    · rename_i hcond
      exfalso
      rcases h with h | h <;> simp_all
  · intro h1 h2 _h3
    unfold extractSection
    split
    · rename_i hcond
      exfalso
      simp only [Bool.or_eq_true, decide_eq_true_eq] at hcond
      omega
    · rw [filterMap_range_eq lines 1 s e (by omega) h2]
      have ha : (s - 1).toNat = s.toNat - 1 := by omega
      have hb : (e - s + 1).toNat = e.toNat + 1 - max s.toNat 1 := by omega
      rw [ha, hb]

/-- **C7 witness**: the valid range 2–3 of a 3-line file yields lines 2–3,
and range 0–3 is rejected. -/
theorem extractSection_spec_witness :
    extractSection [str "a", str "b", str "c"] 2 3 =
      .ok (joinNL (([str "a", str "b", str "c"].drop (2 - 1 : Int).toNat).take
        ((3 : Int) - 2 + 1).toNat)) ∧
    extractSection [str "a", str "b", str "c"] 0 3 =
      .error (str "Invalid line range") := by
  constructor
  · exact (extractSection_spec [str "a", str "b", str "c"] 2 3).2
      (by norm_num) (by norm_num) (by norm_num)
  · exact (extractSection_spec [str "a", str "b", str "c"] 0 3).1
      (by norm_num)

/-! ### SHA-256 (`crypto.createHash("sha256")` as used by HashGenerator) -/

/-- UTF-8 encoding of one character. -/
def utf8Bytes (c : Char) : List Nat :=
  let n := c.toNat
  if n < 128 then [n]
  else if n < 2048 then [192 + n / 64, 128 + n % 64]
  else if n < 65536 then [224 + n / 4096, 128 + n / 64 % 64, 128 + n % 64]
  else [240 + n / 262144, 128 + n / 4096 % 64, 128 + n / 64 % 64, 128 + n % 64]

/-- UTF-8 encoding of a string (the `update(content, "utf8")` step). -/
def utf8Encode (s : Str) : List Nat := (s.map utf8Bytes).flatten

/-- 2^32. -/
def w32 : Nat := 4294967296

def rotr (k x : Nat) : Nat := x / 2^k + x % 2^k * 2^(32 - k)

def bsig0 (x : Nat) : Nat := rotr 2 x ^^^ rotr 13 x ^^^ rotr 22 x
def bsig1 (x : Nat) : Nat := rotr 6 x ^^^ rotr 11 x ^^^ rotr 25 x
def ssig0 (x : Nat) : Nat := rotr 7 x ^^^ rotr 18 x ^^^ x / 2^3
def ssig1 (x : Nat) : Nat := rotr 17 x ^^^ rotr 19 x ^^^ x / 2^10
def chFn (e f g : Nat) : Nat := e &&& f ^^^ (e ^^^ 4294967295) &&& g
def majFn (a b c : Nat) : Nat := a &&& b ^^^ a &&& c ^^^ b &&& c

/-- The 64 SHA-256 round constants. -/
def shaK : List Nat :=
  [1116352408, 1899447441, 3049323471, 3921009573, 961987163,
   1508970993, 2453635748, 2870763221, 3624381080, 310598401,
   607225278, 1426881987, 1925078388, 2162078206, 2614888103,
   3248222580, 3835390401, 4022224774, 264347078, 604807628,
   770255983, 1249150122, 1555081692, 1996064986, 2554220882,
   2821834349, 2952996808, 3210313671, 3336571891, 3584528711,
   113926993, 338241895, 666307205, 773529912, 1294757372,
   1396182291, 1695183700, 1986661051, 2177026350, 2456956037,
   2730485921, 2820302411, 3259730800, 3345764771, 3516065817,
   3600352804, 4094571909, 275423344, 430227734, 506948616,
   659060556, 883997877, 958139571, 1322822218, 1537002063,
   1747873779, 1955562222, 2024104815, 2227730452, 2361852424,
   2428436474, 2756734187, 3204031479, 3329325298]

/-- SHA-256 padding: `0x80`, zero fill, 64-bit big-endian bit length. -/
def sha256Pad (msg : List Nat) : List Nat :=
  let len := msg.length
  let zeros := (64 - (len + 9) % 64) % 64
  msg ++ [128] ++ List.replicate zeros 0 ++
    [len * 8 / 2^56 % 256, len * 8 / 2^48 % 256, len * 8 / 2^40 % 256,
     len * 8 / 2^32 % 256, len * 8 / 2^24 % 256, len * 8 / 2^16 % 256,
     len * 8 / 2^8 % 256, len * 8 % 256]

/-- Split a byte list into 64-byte blocks (`fuel` bounds the recursion). -/
def toBlocks : Nat → List Nat → List (List Nat)
  | 0, _ => []
  | fuel+1, bs => if bs.isEmpty then [] else bs.take 64 :: toBlocks fuel (bs.drop 64)

/-- Big-endian 32-bit words from bytes. -/
def bytesToWords : List Nat → List Nat
  | b0 :: b1 :: b2 :: b3 :: rest =>
    (((b0 * 256 + b1) * 256 + b2) * 256 + b3) :: bytesToWords rest
  | _ => []

/-- Extend the 16-word schedule to 64 words (`k` words still to add). -/
def extendSchedule : Nat → List Nat → List Nat
  | 0, w => w
  | k+1, w =>
    let i := w.length
    let nw := (ssig1 (w.getD (i-2) 0) + w.getD (i-7) 0 +
      ssig0 (w.getD (i-15) 0) + w.getD (i-16) 0) % w32
    extendSchedule k (w ++ [nw])

def schedule (block : List Nat) : List Nat := extendSchedule 48 (bytesToWords block)

/-- The eight SHA-256 working registers. -/
structure Sha256State where
  a : Nat
  b : Nat
  c : Nat
  d : Nat
  e : Nat
  f : Nat
  g : Nat
  h : Nat
deriving Repr, DecidableEq

def roundStep (st : Sha256State) (kw : Nat × Nat) : Sha256State :=
  let t1 := (st.h + bsig1 st.e + chFn st.e st.f st.g + kw.1 + kw.2) % w32
  let t2 := (bsig0 st.a + majFn st.a st.b st.c) % w32
  ⟨(t1 + t2) % w32, st.a, st.b, st.c, (st.d + t1) % w32, st.e, st.f, st.g⟩

def compressBlock (hs : Sha256State) (block : List Nat) : Sha256State :=
  let st := (shaK.zip (schedule block)).foldl roundStep hs
  ⟨(hs.a + st.a) % w32, (hs.b + st.b) % w32, (hs.c + st.c) % w32,
   (hs.d + st.d) % w32, (hs.e + st.e) % w32, (hs.f + st.f) % w32,
   (hs.g + st.g) % w32, (hs.h + st.h) % w32⟩

def sha256Init : Sha256State :=
  ⟨1779033703, 3144134277, 1013904242, 2773480762,
   1359893119, 2600822924, 528734635, 1541459225⟩

def sha256State (msg : List Nat) : Sha256State :=
  (toBlocks (sha256Pad msg).length (sha256Pad msg)).foldl compressBlock sha256Init

/-- Lowercase hex digit. -/
def hexDigit (k : Nat) : Char :=
  match k with
  | 0 => '0' | 1 => '1' | 2 => '2' | 3 => '3' | 4 => '4'
  | 5 => '5' | 6 => '6' | 7 => '7' | 8 => '8' | 9 => '9'
  | 10 => 'a' | 11 => 'b' | 12 => 'c' | 13 => 'd' | 14 => 'e' | _ => 'f'

def wordToHex (x : Nat) : Str :=
  [hexDigit (x / 2^28 % 16), hexDigit (x / 2^24 % 16), hexDigit (x / 2^20 % 16),
   hexDigit (x / 2^16 % 16), hexDigit (x / 2^12 % 16), hexDigit (x / 2^8 % 16),
   hexDigit (x / 2^4 % 16), hexDigit (x % 16)]

/-- Lowercase hex digest (`digest("hex")`). -/
def sha256Hex (msg : List Nat) : Str :=
  wordToHex (sha256State msg).a ++ wordToHex (sha256State msg).b ++
  wordToHex (sha256State msg).c ++ wordToHex (sha256State msg).d ++
  wordToHex (sha256State msg).e ++ wordToHex (sha256State msg).f ++
  wordToHex (sha256State msg).g ++ wordToHex (sha256State msg).h

/-! ### HashGenerator (src: `hashGenerator.js`; default options
sha256 / hex / length 8) -/

/-- The global replace `content.replace(/\r\n/g, "\n")`. -/
def replaceCrlf : Str → Str
  | '\r' :: '\n' :: rest => '\n' :: replaceCrlf rest
  | c :: rest => c :: replaceCrlf rest
  | [] => []

/-- The global replace `content.replace(/\r/g, "\n")`. -/
def replaceCr (s : Str) : Str := s.map fun c => if c = '\r' then '\n' else c

/-- The replace `content.replace(/\n+$/, "\n")`: the maximal non-empty run
of trailing newlines, if any, is replaced by one newline. -/
def collapseTrailingNL (s : Str) : Str :=
  if s.getLast? = some '\n' then
    (s.reverse.dropWhile (fun c => c = '\n')).reverse ++ ['\n']
  else s

/-- `HashGenerator.normalizeContent`. -/
def normalizeContent (content : Str) : Str :=
  collapseTrailingNL (replaceCr (replaceCrlf (jsTrim content)))

/-- `HashGenerator.generateHash` (default algorithm sha256, encoding hex,
length 8): normalize, digest, truncate to 8 characters, uppercase. -/
def generateHash (content : Str) : Str :=
  ((sha256Hex (utf8Encode (normalizeContent content))).take 8).map upChar

/-- The content actually digested by `HashGenerator.generateSectionHash`:
for a section with a (truthy) divider line, the first line whose trim
equals the divider's trim is removed; if no line matches, the whole
content is hashed. -/
def contentToHash (s : Sect) : Str :=
  match s.originalDividerLine with
  | some d =>
    if s.hasDivider && !d.isEmpty then
      match (splitNL s.content).findIdx? (fun l => jsTrim l == jsTrim d) with
      | some di => joinNL ((splitNL s.content).eraseIdx di)
      | none => s.content
    else s.content
  | none => s.content

/-- `HashGenerator.generateSectionHash`; a section with falsy (empty)
content is rejected. -/
def generateSectionHash (s : Sect) : Except Str Str :=
  if s.content.isEmpty then .error (str "Section must have content property")
  else .ok (generateHash (contentToHash s))

/-! ### C5: normalization characterization -/

/-- Following the spec's words: every CRLF and every lone CR is converted
to LF, in one left-to-right pass. -/
def specConvertEOL : Str → Str
  | [] => []
  | '\r' :: '\n' :: rest => '\n' :: specConvertEOL rest
  | '\r' :: rest => '\n' :: specConvertEOL rest
  | c :: rest => c :: specConvertEOL rest

/-- Following the spec's words: a run of two or more trailing newlines is
collapsed to exactly one trailing newline. -/
def specCollapseTrailing (s : Str) : Str :=
  if 2 ≤ (s.reverse.takeWhile (fun c => c = '\n')).length then
    (s.reverse.dropWhile (fun c => c = '\n')).reverse ++ ['\n']
  else s

theorem specConvertEOL_eq_replace (s : Str) :
    specConvertEOL s = replaceCr (replaceCrlf s) := by
  induction s using specConvertEOL.induct <;>
    simp_all [specConvertEOL, replaceCrlf, replaceCr]

theorem collapseTrailingNL_eq_spec (s : Str) :
    collapseTrailingNL s = specCollapseTrailing s := by
  unfold collapseTrailingNL specCollapseTrailing
  by_cases h : s.getLast? = some '\n'
  · rw [if_pos h]
    by_cases h2 : 2 ≤ (s.reverse.takeWhile (fun c => c = '\n')).length
    · rw [if_pos h2]
    · rw [if_neg h2]
      have hrev : s.reverse.head? = some '\n' := by
        rw [List.head?_reverse]
        exact h
      cases hr : s.reverse with
      | nil => rw [hr] at hrev; simp at hrev
      | cons c r' =>
        rw [hr] at hrev
        simp only [List.head?_cons, Option.some_inj] at hrev
        subst hrev
        rw [hr] at h2
        have htw' : r'.takeWhile (fun c => c = '\n') = [] := by
          by_contra hne
          have : 1 ≤ (r'.takeWhile (fun c => c = '\n')).length := by
            cases hq : r'.takeWhile (fun c => c = '\n') with
            | nil => exact absurd hq hne
            | cons a b => simp
          apply h2
          rw [List.takeWhile_cons]
          simp only [decide_True, if_true, List.length_cons]
          omega
        have hdw : r'.dropWhile (fun c => c = '\n') = r' := by
          have hsplit := List.takeWhile_append_dropWhile (p := fun c => c = '\n') (l := r')
          rw [htw'] at hsplit
          simpa using hsplit
        have hs' : s = r'.reverse ++ ['\n'] := by
          have := congrArg List.reverse hr
          simpa using this
        rw [List.dropWhile_cons]
        simp only [decide_True, if_true, hdw]
        exact hs'.symm
  · rw [if_neg h, if_neg]
    intro h2
    cases hr : s.reverse with
    | nil => rw [hr] at h2; simp at h2
    | cons c r' =>
      have : s.getLast? = some c := by
        rw [← List.head?_reverse, hr]
        rfl
      have hc : ¬c = '\n' := by
        intro hc
        exact h (hc ▸ this)
      rw [hr, List.takeWhile_cons] at h2
      simp [hc] at h2

/-- **C5**: the content digested by `generateHash T` is `normalizeContent T`
(normalize, sha256, hex, truncate to 8, uppercase), and `normalizeContent`
equals: JS-trim of `T`, then every CRLF and lone CR converted to LF, then
any run of two or more trailing newlines collapsed to exactly one. -/
theorem generateHash_digests_normalized (T : Str) :
    generateHash T = ((sha256Hex (utf8Encode (normalizeContent T))).take 8).map upChar ∧
    normalizeContent T = specCollapseTrailing (specConvertEOL (jsTrim T)) := by
  refine ⟨rfl, ?_⟩
  unfold normalizeContent
  rw [specConvertEOL_eq_replace, collapseTrailingNL_eq_spec]

/-- **C4 counterexample**: a section whose divider line `---:` occurs as
its third line, while an earlier line `"  ---:"` trim-matches it.  The code
removes the earlier trim-matching line, so the hash differs from the hash
of the content with the actual divider line removed, refuting the claim
for dividers at arbitrary positions. -/
theorem generateSectionHash_position_counterexample :
    (str "---:") ∈ splitNL (str "a\n  ---:\n---:\nx") ∧
    generateSectionHash ⟨1, str "a\n  ---:\n---:\nx", true, some (str "---:"), 1, 4⟩ ≠
      generateSectionHash ⟨1, str "a\n  ---:\nx", false, none, 1, 3⟩ := by
  constructor
  · decide
  · decide

/-- **C4 (amended)**: `generateSectionHash` of a section with a divider
equals `generateSectionHash` of a divider-free section whose content is
the original content with the *first line whose JS-trim equals the
divider's JS-trim* removed (for sections produced by `splitContent` this
is the divider line itself, giving the divider-exclusion property). -/
theorem generateSectionHash_divider_excluded (s : Sect) (d : Str) (j : Nat)
    (hd : s.hasDivider = true) (hodl : s.originalDividerLine = some d)
    (hdne : d.isEmpty = false) (hcne : s.content.isEmpty = false)
    (hidx : (splitNL s.content).findIdx? (fun l => jsTrim l == jsTrim d) = some j)
    (hrem : (joinNL ((splitNL s.content).eraseIdx j)).isEmpty = false) :
    generateSectionHash s =
      generateSectionHash ⟨0, joinNL ((splitNL s.content).eraseIdx j), false, none, 0, 0⟩ := by
  unfold generateSectionHash
  rw [if_neg (by simp [hcne])]
  have : contentToHash s = joinNL ((splitNL s.content).eraseIdx j) := by
    unfold contentToHash
    rw [hodl]
    simp only [hd, hdne, Bool.not_false, Bool.and_self, if_true]
    rw [hidx]
  rw [this]
  rw [if_neg (by simp [hrem])]
  rfl

/-- **C4 witness**: the divider-exclusion property at the concrete section
`"---:\nB"`. -/
theorem generateSectionHash_divider_excluded_witness :
    generateSectionHash ⟨1, str "---:\nB", true, some (str "---:"), 1, 2⟩ =
      generateSectionHash ⟨0, joinNL ((splitNL (str "---:\nB")).eraseIdx 0),
        false, none, 0, 0⟩ :=
  generateSectionHash_divider_excluded
    ⟨1, str "---:\nB", true, some (str "---:"), 1, 2⟩ (str "---:") 0
    rfl rfl (by decide) (by decide) (by decide) (by decide)

/-! ### StreamingFileProcessor.analyzeFile / streamSplit (src: part_002),
as pure functions over the file's content.  `readline` delivery of lines is
modeled for carriage-return-free contents: `split("\n")` with the single
trailing empty line (when the content ends in `"\n"`) dropped, and no lines
at all for an empty file. -/

/-- The lines emitted by `readline` for a CR-free file content. -/
def fileLines (content : Str) : List Str :=
  if content.isEmpty then []
  else if (splitNL content).getLast? = some [] then (splitNL content).dropLast
  else splitNL content

/-- `Buffer.byteLength(line, "utf-8")`. -/
def byteLength (l : Str) : Nat := (utf8Encode l).length

/-- Per-section metadata accumulated by `analyzeFile` (the `hashIndex`,
`dividerLines` and file-stat fields are not modeled; the claims are about
sections). -/
structure SectionMeta where
  startLine : Nat
  endLine : Nat
  lineCount : Nat
  estimatedSize : Nat
  hash : Str
  hasDivider : Bool
deriving DecidableEq, Repr

/-- `StreamingFileProcessor.generateSectionHash(filePath, startLine,
endLine)`: extract the range, then hash it as a bare `{ content }`
section. -/
def streamSectionHash (all : List Str) (s e : Nat) : Except Str Str := do
  let content ← extractSection all s e
  generateSectionHash ⟨0, content, false, none, 0, 0⟩

/-- The line loop of `StreamingFileProcessor.analyzeFile`: `ln` lines
consumed so far, current section start `cs`, line count `cc`, estimated
size `csz`, divider flag `chd`. -/
def analyzeLoop (all : List Str) :
    List Str → Nat → Nat → Nat → Nat → Bool → Except Str (List SectionMeta)
  | [], ln, cs, cc, csz, chd =>
    if 0 < cc then do
      let h ← streamSectionHash all cs ln
      .ok [⟨cs, ln, cc, csz, h, chd⟩]
    else .ok []
  | l :: rest, ln, cs, cc, csz, chd =>
    if 10000 < l.length then .error (str "LineTooLong")
    else if dividerPattern l then
      if 1 < cc + 1 then do
        let h ← streamSectionHash all cs ln
        let tail ← analyzeLoop all rest (ln+1) (ln+2) 0 0 true
        .ok (⟨cs, ln, cc + 1, csz + byteLength l + 1, h, chd⟩ :: tail)
      else analyzeLoop all rest (ln+1) (ln+2) 0 0 true
    else analyzeLoop all rest (ln+1) cs (cc+1) (csz + byteLength l + 1) chd

/-- The sections of `StreamingFileProcessor.analyzeFile`. -/
def analyzeFileSections (content : Str) : Except Str (List SectionMeta) :=
  analyzeLoop (fileLines content) (fileLines content) 0 1 0 0 false

/-- A section as produced by `StreamingFileProcessor.streamSplit`. -/
structure StreamSection where
  content : Str
  hash : Str
  lineRange : Nat × Nat
  size : Nat
  hasDivider : Bool
deriving DecidableEq, Repr

/-- `StreamingFileProcessor.streamSplit`. -/
def streamSplit (content : Str) : Except Str (List StreamSection) := do
  let metas ← analyzeFileSections content
  metas.mapM fun m => do
    let c ← extractSection (fileLines content) (m.startLine : Int) (m.endLine : Int)
    pure ⟨c, m.hash, (m.startLine, m.endLine), m.estimatedSize, m.hasDivider⟩

/-- A divider-only run: two consecutive divider lines (no content lines
between them). -/
def hasDividerOnlyRun (content : Str) : Bool :=
  ((splitNL content).zip (splitNL content).tail).any fun p =>
    dividerPattern p.1 && dividerPattern p.2

/-- The streaming section content corresponding to a memory section: the
memory section's content with its leading divider line (when present)
removed. -/
def stripLeadingDivider (s : Sect) : Str :=
  if s.hasDivider then joinNL (splitNL s.content).tail else s.content

/-- **C3 counterexample**: for `"A\n---:\nB"` — which contains no
divider-only run — both strategies report two sections, but the section
contents differ: the in-memory splitter keeps the divider line inside the
second section (`"---:\nB"`) while the streaming splitter excludes it
(`"B"`). -/
theorem strategies_content_counterexample :
    hasDividerOnlyRun (str "A\n---:\nB") = false ∧
    (splitContent (str "A\n---:\nB")).length = 2 ∧
    (∃ ss, streamSplit (str "A\n---:\nB") = .ok ss ∧ ss.length = 2 ∧
      ss.map StreamSection.content ≠
        (splitContent (str "A\n---:\nB")).map Sect.content) := by
  refine ⟨by decide, by decide, ⟨[⟨str "A", str "559AEAD0", (1, 1), 7, false⟩,
    ⟨str "B", str "DF7E70E5", (3, 3), 2, true⟩], by decide, by decide, by decide⟩⟩

/-! ### Lemmas for the strategy-equivalence proof -/

theorem joinNL_ne_nil (ls : List Str) (h1 : ls ≠ []) (h2 : ∀ l ∈ ls, l ≠ []) :
    joinNL ls ≠ [] := by
  cases ls with
  | nil => exact absurd rfl h1
  | cons l t =>
    cases t with
    | nil => exact h2 l (List.mem_cons_self _ _)
    | cons l' t' =>
      rw [joinNL_cons _ _ (by simp)]
      simp

theorem extractSection_ok (all : List Str) (s e : Nat) (h1 : 1 ≤ s) (h2 : s ≤ e) :
    extractSection all (s : Int) (e : Int) =
      .ok (joinNL ((all.drop (s-1)).take (e+1-s))) := by
  unfold extractSection
  split
  · rename_i hcond
    exfalso
    simp only [Bool.or_eq_true, decide_eq_true_eq] at hcond
    omega
  · rw [filterMap_range_eq all 1 (s : Int) (e : Int) (by omega) (by omega)]
    have ha : (s : Int).toNat - 1 = s - 1 := by omega
    have hb : (e : Int).toNat + 1 - max (s : Int).toNat 1 = e + 1 - s := by omega
    rw [ha, hb]

theorem streamSectionHash_ok (all : List Str) (s e : Nat) (h1 : 1 ≤ s) (h2 : s ≤ e)
    (hne : joinNL ((all.drop (s-1)).take (e+1-s)) ≠ []) :
    streamSectionHash all s e =
      .ok (generateHash (joinNL ((all.drop (s-1)).take (e+1-s)))) := by
  have hg : generateSectionHash
      ⟨0, joinNL ((all.drop (s-1)).take (e+1-s)), false, none, 0, 0⟩ =
      .ok (generateHash (joinNL ((all.drop (s-1)).take (e+1-s)))) := by
    unfold generateSectionHash
    rw [if_neg (by simpa [List.isEmpty_iff] using hne)]
    rfl
  unfold streamSectionHash
  rw [extractSection_ok all s e h1 h2]
  exact hg

theorem slice_take_succ (all : List Str) (a m : Nat) (h : a + m < all.length) :
    (all.drop a).take (m+1) = (all.drop a).take m ++ [all.getD (a+m) []] := by
  rw [List.take_succ]
  congr 1
  rw [List.getElem?_drop, List.getElem?_eq_getElem h]
  simp [List.getD_eq_getElem?_getD, List.getElem?_eq_getElem h]

theorem slice_tail (all : List Str) (a m : Nat) :
    ((all.drop a).take (m+1)).tail = (all.drop (a+1)).take m := by
  rw [← List.tail_drop]
  cases h : all.drop a with
  | nil => simp
  | cons x xs => simp

theorem slice_subset (all : List Str) (a m : Nat) :
    ∀ x ∈ (all.drop a).take m, x ∈ all := by
  intro x hx
  exact List.drop_subset a all (List.take_subset m _ hx)

theorem mapM_ok_of_forall {α β γ : Type} (f : α → Except γ β) (g : α → β) :
    ∀ (l : List α), (∀ a ∈ l, f a = .ok (g a)) → l.mapM f = .ok (l.map g) := by
  intro l
  induction l with
  | nil => intro _; rfl
  | cons a t ih =>
    intro h
    rw [List.mapM_cons, h a (List.mem_cons_self _ _), List.map_cons,
      ih (fun b hb => h b (List.mem_cons_of_mem _ hb))]
    rfl

/-- Well-behaved line lists for the strategy-equivalence proof: no newline
inside a line, no empty line, every line within the streaming length
bound, no two adjacent divider lines, and no divider as the last line. -/
structure GoodLines (all : List Str) : Prop where
  no_nl : ∀ l ∈ all, '\n' ∉ l
  no_empty : ∀ l ∈ all, l ≠ []
  len_ok : ∀ l ∈ all, l.length ≤ 10000
  no_adj : ∀ j, j + 1 < all.length →
    ¬(dividerPattern (all.getD j []) = true ∧ dividerPattern (all.getD (j+1) []) = true)
  last_ok : all ≠ [] → dividerPattern (all.getD (all.length - 1) []) = false

theorem slice_join_split (all : List Str) (hg : GoodLines all) (a m : Nat)
    (hne : (all.drop a).take m ≠ []) :
    splitNL (joinNL ((all.drop a).take m)) = (all.drop a).take m :=
  splitNL_joinNL _ hne (fun l hl => hg.no_nl l (slice_subset all a m l hl))

theorem slice_join_ne_nil (all : List Str) (hg : GoodLines all) (a m : Nat)
    (hne : (all.drop a).take m ≠ []) :
    joinNL ((all.drop a).take m) ≠ [] :=
  joinNL_ne_nil _ hne (fun l hl => hg.no_empty l (slice_subset all a m l hl))

theorem slice_ne_nil (all : List Str) (a m : Nat) (ha : a < all.length) (hm : 1 ≤ m) :
    (all.drop a).take m ≠ [] := by
  have h1 : (all.drop a).length = all.length - a := List.length_drop a all
  have : ((all.drop a).take m).length = min m (all.length - a) := by
    rw [List.length_take, h1]
  intro hc
  rw [hc] at this
  simp only [List.length_nil] at this
  omega

/-- The lockstep correspondence between the streaming analyzer loop and the
in-memory splitter loop: on a well-behaved line list they produce the same
sections, the streaming side describing each section by the line range that
excludes its divider line. -/
theorem analyzeLoop_splitLoop (all : List Str) (hg : GoodLines all) :
    ∀ (rest : List Str) (k cs cc csz : Nat) (cur : List Str) (hd chd : Bool)
      (dl : Option Str) (sidx : Nat),
      all.drop k = rest → k ≤ all.length → cs + cc = k + 1 → 1 ≤ cs → chd = hd →
      ((k = 0 ∧ cur = [] ∧ cs = 1 ∧ hd = false) ∨
       (2 ≤ cs ∧ cs - 1 ≤ k ∧ hd = true ∧
         dividerPattern (all.getD (cs-2) []) = true ∧
         cur = (all.drop (cs-2)).take (k - (cs-2))) ∨
       (cs = 1 ∧ 1 ≤ k ∧ hd = false ∧ cur = all.take k)) →
      ∃ ms, analyzeLoop all rest k cs cc csz chd = .ok ms ∧
        (∀ m ∈ ms, 1 ≤ m.startLine ∧ m.startLine ≤ m.endLine ∧
          m.endLine ≤ all.length) ∧
        ms.map (fun m =>
          ((all.drop (m.startLine - 1)).take (m.endLine + 1 - m.startLine),
            m.hasDivider)) =
          (splitLoop rest k cur hd dl sidx).map (fun s =>
            ((if s.hasDivider then (splitNL s.content).tail else splitNL s.content),
              s.hasDivider)) := by
  intro rest
  induction rest with
  | nil =>
    intro k cs cc csz cur hd chd dl sidx hdrop hk hsum hcs hchd hcase
    subst chd
    have hkl : all.length ≤ k := by
      have := congrArg List.length hdrop
      simp only [List.length_drop, List.length_nil] at this
      omega
    have hkeq : k = all.length := le_antisymm hk hkl
    rcases hcase with ⟨hk0, hcur, hcs1, hhd⟩ | ⟨hcs2, hcsk, hhd, hdivat, hcur⟩ |
      ⟨hcs1, hk1, hhd, hcur⟩
    · subst hhd hcur hcs1 hk0
      have hcc : cc = 0 := by omega
      subst hcc
      exact ⟨[], by simp [analyzeLoop], by simp, by simp [splitLoop]⟩
    · subst hhd
      obtain ⟨a, rfl⟩ : ∃ a, cs = a + 2 := ⟨cs - 2, by omega⟩
      rw [show a + 2 - 2 = a from rfl] at hdivat hcur
      have hallne : all ≠ [] := by
        intro h
        rw [h] at hkeq
        simp at hkeq
        omega
      have hccpos : 0 < cc := by
        by_contra hc
        push_neg at hc
        have ha : a = all.length - 1 := by omega
        have hlast := hg.last_ok hallne
        rw [← ha] at hlast
        rw [hdivat] at hlast
        simp at hlast
      have hak : a + 1 < k := by omega
      have hcurne : cur ≠ [] := by
        rw [hcur]
        exact slice_ne_nil all a (k - a) (by omega) (by omega)
      have harith1 : a + 2 - 1 = a + 1 := by omega
      have harith2 : k + 1 - (a + 2) = k - a - 1 := by omega
      have hslicene : (all.drop (a+1)).take (k - a - 1) ≠ [] :=
        slice_ne_nil all (a+1) (k - a - 1) (by omega) (by omega)
      have hjoin_ne : joinNL ((all.drop (a+1)).take (k - a - 1)) ≠ [] :=
        slice_join_ne_nil all hg (a+1) (k - a - 1) hslicene
      have hhash := streamSectionHash_ok all (a+2) k (by omega) (by omega)
        (by rw [harith1, harith2]; exact hjoin_ne)
      have hsplit : splitNL (joinNL cur) = cur := by
        rw [hcur]
        exact slice_join_split all hg a (k - a) (hcur ▸ hcurne)
      refine ⟨[⟨a+2, k, cc, csz, generateHash (joinNL
        (((all.drop (a+2-1)).take (k+1-(a+2))))), true⟩], ?_, ?_, ?_⟩
      · simp only [analyzeLoop]
        rw [if_pos hccpos, hhash]
        rfl
      · intro m hm
        simp only [List.mem_singleton] at hm
        subst hm
        exact ⟨by dsimp only; omega, by dsimp only; omega, by dsimp only; omega⟩
      · rw [show splitLoop [] k cur true dl sidx =
            [⟨sidx, joinNL cur, true, dl, k - cur.length + 1, k⟩] from by
          simp [splitLoop, List.isEmpty_iff, hcurne]]
        simp only [List.map_cons, List.map_nil]
        rw [hsplit, hcur, show k - a = (k - a - 1) + 1 from by omega,
          slice_tail all a (k - a - 1), harith1, harith2]
        simp
    · subst hhd hcs1 hcur
      have hcck : cc = k := by omega
      have hcurne : all.take k ≠ [] := by
        intro hc
        have := congrArg List.length hc
        simp only [List.length_take, List.length_nil] at this
        omega
      have hccpos : 0 < cc := by omega
      have hsplit : splitNL (joinNL (all.take k)) = all.take k := by
        have h0 : (all.drop 0).take k = all.take k := by rw [List.drop_zero]
        rw [← h0]
        exact slice_join_split all hg 0 k (by rw [h0]; exact hcurne)
      have hslicene : (all.drop 0).take (k+1-1) ≠ [] := by
        rw [List.drop_zero, show k+1-1 = k from rfl]
        exact hcurne
      have hjoin_ne := slice_join_ne_nil all hg 0 (k+1-1) hslicene
      have hhash := streamSectionHash_ok all 1 k (by omega) (by omega) hjoin_ne
      refine ⟨[⟨1, k, cc, csz, generateHash (joinNL
        (((all.drop (1-1)).take (k+1-1)))), false⟩], ?_, ?_, ?_⟩
      · simp only [analyzeLoop]
        rw [if_pos hccpos, hhash]
        rfl
      · intro m hm
        simp only [List.mem_singleton] at hm
        subst hm
        exact ⟨by dsimp only; omega, by dsimp only; omega, by dsimp only; omega⟩
      · rw [show splitLoop [] k (all.take k) false dl sidx =
            [⟨sidx, joinNL (all.take k), false, dl,
              k - (all.take k).length + 1, k⟩] from by
          simp [splitLoop, List.isEmpty_iff, hcurne]]
        simp only [List.map_cons, List.map_nil]
        rw [hsplit, show (1:Nat)-1 = 0 from rfl, show k+1-1 = k from rfl,
          List.drop_zero]
        simp
  | cons l rest' ih =>
    intro k cs cc csz cur hd chd dl sidx hdrop hk hsum hcs hchd hcase
    subst chd
    have hkl : k < all.length := by
      have := congrArg List.length hdrop
      simp only [List.length_drop, List.length_cons] at this
      omega
    have hlk : all.getD k [] = l := by
      have h1 : (all.drop k).head? = some l := by rw [hdrop]; rfl
      rw [List.head?_drop] at h1
      simp [List.getD_eq_getElem?_getD, h1]
    have hrest' : all.drop (k+1) = rest' := by
      rw [← List.tail_drop, hdrop]
      rfl
    have hlmem : l ∈ all := by
      have : l ∈ all.drop k := by rw [hdrop]; exact List.mem_cons_self _ _
      exact List.drop_subset k all this
    have hlen : ¬10000 < l.length := by
      have := hg.len_ok l hlmem
      omega
    by_cases hdl : dividerPattern l = true
    · rcases hcase with ⟨hk0, hcur, hcs1, hhd⟩ | ⟨hcs2, hcsk, hhd, hdivat, hcur⟩ |
        ⟨hcs1, hk1, hhd, hcur⟩
      · -- (A): the very first line is a divider; neither side emits a section
        subst hhd hcur hcs1 hk0
        have hcc0 : cc = 0 := by omega
        subst hcc0
        obtain ⟨ms, hok, hrange, hmap⟩ := ih 1 2 0 0 [l] true true (some l) sidx
          hrest' (by omega) (by omega) (by omega) rfl
          (Or.inr (Or.inl ⟨by omega, by omega, rfl,
            by rw [show 2 - 2 = 0 from rfl, hlk]; exact hdl,
            by rw [show 2 - 2 = 0 from rfl, List.drop_zero,
              show (1:Nat) - 0 = 1 from rfl, ← List.drop_zero all, hdrop]; rfl⟩))
        refine ⟨ms, ?_, hrange, ?_⟩
        · rw [show analyzeLoop all (l :: rest') 0 1 0 csz false =
              analyzeLoop all rest' 1 2 0 0 true from by
            simp [analyzeLoop, hlen, hdl]]
          exact hok
        · rw [show splitLoop (l :: rest') 0 [] false dl sidx =
              splitLoop rest' 1 [l] true (some l) sidx from by
            simp [splitLoop, hdl]]
          exact hmap
      · -- (B): a divider closes a divider-started section
        subst hhd
        obtain ⟨a, rfl⟩ : ∃ a, cs = a + 2 := ⟨cs - 2, by omega⟩
        rw [show a + 2 - 2 = a from rfl] at hdivat hcur
        have hccpos : 0 < cc := by
          by_contra hc
          push_neg at hc
          have ha : a = k - 1 := by omega
          have hadj := hg.no_adj a (by omega)
          apply hadj
          refine ⟨hdivat, ?_⟩
          rw [show a + 1 = k from by omega, hlk]
          exact hdl
        have hak : a + 1 < k := by omega
        have hcurne : cur ≠ [] := by
          rw [hcur]
          exact slice_ne_nil all a (k - a) (by omega) (by omega)
        have harith1 : a + 2 - 1 = a + 1 := by omega
        have harith2 : k + 1 - (a + 2) = k - a - 1 := by omega
        have hslicene : (all.drop (a+1)).take (k - a - 1) ≠ [] :=
          slice_ne_nil all (a+1) (k - a - 1) (by omega) (by omega)
        have hjoin_ne : joinNL ((all.drop (a+1)).take (k - a - 1)) ≠ [] :=
          slice_join_ne_nil all hg (a+1) (k - a - 1) hslicene
        have hhash := streamSectionHash_ok all (a+2) k (by omega) (by omega)
          (by rw [harith1, harith2]; exact hjoin_ne)
        have hsplit : splitNL (joinNL cur) = cur := by
          rw [hcur]
          exact slice_join_split all hg a (k - a) (hcur ▸ hcurne)
        obtain ⟨ms, hok, hrange, hmap⟩ := ih (k+1) (k+2) 0 0 [l] true true
          (some l) (sidx+1) hrest' (by omega) (by omega) (by omega) rfl
          (Or.inr (Or.inl ⟨by omega, by omega, rfl,
            by rw [show k + 2 - 2 = k from rfl, hlk]; exact hdl,
            by rw [show k + 2 - 2 = k from rfl, show k + 1 - k = 1 from by omega,
              hdrop]; rfl⟩))
        refine ⟨⟨a+2, k, cc+1, csz + byteLength l + 1, generateHash (joinNL
          (((all.drop (a+2-1)).take (k+1-(a+2))))), true⟩ :: ms, ?_, ?_, ?_⟩
        · simp only [analyzeLoop]
          rw [if_neg hlen, if_pos hdl, if_pos (by omega), hhash, hok]
          rfl
        · intro m hm
          rcases List.mem_cons.mp hm with h1 | h1
          · subst h1
            exact ⟨by dsimp only; omega, by dsimp only; omega,
              by dsimp only; omega⟩
          · exact hrange m h1
        · rw [show splitLoop (l :: rest') k cur true dl sidx =
              ⟨sidx, joinNL cur, true, dl, k - cur.length + 1, k⟩ ::
                splitLoop rest' (k+1) [l] true (some l) (sidx+1) from by
            simp only [splitLoop]
            rw [if_pos hdl, if_neg (by simpa [List.isEmpty_iff] using hcurne)]]
          simp only [List.map_cons]
          congr 1
          · dsimp only
            rw [hsplit, hcur, show k - a = (k - a - 1) + 1 from by omega,
              slice_tail all a (k - a - 1), harith1, harith2]
            simp
      · -- (C): a divider closes the leading divider-free section
        subst hhd hcs1 hcur
        have hcck : cc = k := by omega
        have hccpos : 0 < cc := by omega
        have hcurne : all.take k ≠ [] := by
          intro hc
          have := congrArg List.length hc
          simp only [List.length_take, List.length_nil] at this
          omega
        have hsplit : splitNL (joinNL (all.take k)) = all.take k := by
          have h0 : (all.drop 0).take k = all.take k := by rw [List.drop_zero]
          rw [← h0]
          exact slice_join_split all hg 0 k (by rw [h0]; exact hcurne)
        have hslicene : (all.drop 0).take (k+1-1) ≠ [] := by
          rw [List.drop_zero, show k+1-1 = k from rfl]
          exact hcurne
        have hjoin_ne := slice_join_ne_nil all hg 0 (k+1-1) hslicene
        have hhash := streamSectionHash_ok all 1 k (by omega) (by omega) hjoin_ne
        obtain ⟨ms, hok, hrange, hmap⟩ := ih (k+1) (k+2) 0 0 [l] true true
          (some l) (sidx+1) hrest' (by omega) (by omega) (by omega) rfl
          (Or.inr (Or.inl ⟨by omega, by omega, rfl,
            by rw [show k + 2 - 2 = k from rfl, hlk]; exact hdl,
            by rw [show k + 2 - 2 = k from rfl, show k + 1 - k = 1 from by omega,
              hdrop]; rfl⟩))
        refine ⟨⟨1, k, cc+1, csz + byteLength l + 1, generateHash (joinNL
          (((all.drop (1-1)).take (k+1-1)))), false⟩ :: ms, ?_, ?_, ?_⟩
        · simp only [analyzeLoop]
          rw [if_neg hlen, if_pos hdl, if_pos (by omega), hhash, hok]
          rfl
        · intro m hm
          rcases List.mem_cons.mp hm with h1 | h1
          · subst h1
            exact ⟨by dsimp only; omega, by dsimp only; omega,
              by dsimp only; omega⟩
          · exact hrange m h1
        · rw [show splitLoop (l :: rest') k (all.take k) false dl sidx =
              ⟨sidx, joinNL (all.take k), false, dl,
                k - (all.take k).length + 1, k⟩ ::
                splitLoop rest' (k+1) [l] true (some l) (sidx+1) from by
            simp only [splitLoop]
            rw [if_pos hdl, if_neg (by simpa [List.isEmpty_iff] using hcurne)]]
          simp only [List.map_cons]
          congr 1
          · dsimp only
            rw [hsplit, show (1:Nat)-1 = 0 from rfl, show k+1-1 = k from rfl,
              List.drop_zero]
            simp
    · -- non-divider line: both sides extend their current section
      have hdl' : dividerPattern l = false := by simpa using hdl
      have hnext : ((k+1 = 0 ∧ cur ++ [l] = [] ∧ cs = 1 ∧ hd = false) ∨
          (2 ≤ cs ∧ cs - 1 ≤ k+1 ∧ hd = true ∧
            dividerPattern (all.getD (cs-2) []) = true ∧
            cur ++ [l] = (all.drop (cs-2)).take (k+1 - (cs-2))) ∨
          (cs = 1 ∧ 1 ≤ k+1 ∧ hd = false ∧ cur ++ [l] = all.take (k+1))) := by
        rcases hcase with ⟨hk0, hcur, hcs1, hhd⟩ | ⟨hcs2, hcsk, hhd, hdivat, hcur⟩ |
          ⟨hcs1, hk1, hhd, hcur⟩
        · subst hk0 hcur hcs1 hhd
          refine Or.inr (Or.inr ⟨rfl, by omega, rfl, ?_⟩)
          have hall : all = l :: rest' := by
            rw [← List.drop_zero all, hdrop]
          rw [hall]
          rfl
        · refine Or.inr (Or.inl ⟨hcs2, by omega, hhd, hdivat, ?_⟩)
          obtain ⟨a, rfl⟩ : ∃ a, cs = a + 2 := ⟨cs - 2, by omega⟩
          rw [show a + 2 - 2 = a from rfl] at hdivat hcur ⊢
          rw [hcur, show k + 1 - a = (k - a) + 1 from by omega,
            slice_take_succ all a (k - a) (by omega),
            show a + (k - a) = k from by omega, hlk]
        · refine Or.inr (Or.inr ⟨hcs1, by omega, hhd, ?_⟩)
          rw [hcur]
          have := slice_take_succ all 0 k (by omega)
          simp only [List.drop_zero, Nat.zero_add] at this
          rw [this, hlk]
      obtain ⟨ms, hok, hrange, hmap⟩ := ih (k+1) cs (cc+1)
        (csz + byteLength l + 1) (cur ++ [l]) hd hd dl sidx hrest'
        (by omega) (by omega) (by omega) rfl hnext
      refine ⟨ms, ?_, hrange, ?_⟩
      · simp only [analyzeLoop]
        rw [if_neg hlen, if_neg (by simp [hdl'])]
        exact hok
      · simp only [splitLoop]
        rw [if_neg (by simp [hdl'])]
        exact hmap

theorem zip_tail_mem (l : List Str) :
    ∀ j, j + 1 < l.length → (l.getD j [], l.getD (j+1) []) ∈ l.zip l.tail := by
  induction l with
  | nil => simp
  | cons x t ih =>
    intro j hj
    simp only [List.length_cons] at hj
    cases t with
    | nil => simp at hj
    | cons y t' =>
      cases j with
      | zero => simp [List.zip_cons_cons]
      | succ j' =>
        simp only [List.getD_cons_succ, List.tail_cons, List.zip_cons_cons]
        exact List.mem_cons_of_mem _ (ih j' (by simpa using hj))

/-- **C3 (amended)**: for a non-empty carriage-return-free content with no
empty lines, no over-long lines, no divider-only runs and no divider as the
last line, the streaming strategy succeeds and produces exactly the
in-memory strategy's sections, each section's content equal to the
corresponding in-memory section's content with its leading divider line
removed (as the counterexample shows, the contents are *not* equal
verbatim: the streaming splitter excludes the divider line that the
in-memory splitter keeps). -/
theorem strategies_equivalent (content : Str)
    (h0 : content ≠ [])
    (_hcr : '\r' ∉ content)
    (hnb : [] ∉ splitNL content)
    (hlen : ∀ l ∈ splitNL content, l.length ≤ 10000)
    (hrun : hasDividerOnlyRun content = false)
    (hlast : dividerPattern ((splitNL content).getLast?.getD []) = false) :
    ∃ ss, streamSplit content = .ok ss ∧
      ss.map StreamSection.content =
        (splitContent content).map stripLeadingDivider := by
  have hlastD : dividerPattern
      ((splitNL content).getD ((splitNL content).length - 1) []) = false := by
    rw [List.getD_eq_getElem?_getD, ← List.getLast?_eq_getElem?]
    exact hlast
  have hg : GoodLines (splitNL content) :=
    { no_nl := splitNL_no_newline content
      no_empty := fun l hl hc => hnb (hc ▸ hl)
      len_ok := hlen
      no_adj := by
        intro j hj hboth
        have hmem := zip_tail_mem (splitNL content) j hj
        have hany : ∀ (a b : Str),
            (a, b) ∈ (splitNL content).zip (splitNL content).tail →
            dividerPattern a = true → dividerPattern b = false := by
          simpa [hasDividerOnlyRun] using hrun
        exact absurd (hany _ _ hmem hboth.1) (by simp only [hboth.2]; simp)
      last_ok := fun _ => hlastD }
  have hfl : fileLines content = splitNL content := by
    unfold fileLines
    rw [if_neg (by simpa [List.isEmpty_iff] using h0)]
    rw [if_neg]
    intro hc
    obtain ⟨hne, heq⟩ := List.mem_getLast?_eq_getLast
      (show ([] : Str) ∈ (splitNL content).getLast? from hc)
    exact hnb (heq ▸ List.getLast_mem hne)
  obtain ⟨ms, hok, hrange, hmap⟩ := analyzeLoop_splitLoop (splitNL content) hg
    (splitNL content) 0 1 0 0 [] false false none 0
    (List.drop_zero _) (by omega) (by omega) (by omega) rfl
    (Or.inl ⟨rfl, rfl, rfl, rfl⟩)
  have hsplitc : splitContent content =
      splitLoop (splitNL content) 0 [] false none 0 := by
    unfold splitContent
    rw [if_neg (by simpa [List.isEmpty_iff] using h0)]
  refine ⟨ms.map (fun m => ⟨joinNL (((splitNL content).drop (m.startLine - 1)).take
      (m.endLine + 1 - m.startLine)), m.hash, (m.startLine, m.endLine),
      m.estimatedSize, m.hasDivider⟩), ?_, ?_⟩
  · unfold streamSplit analyzeFileSections
    rw [hfl, hok]
    show ms.mapM _ = _
    rw [mapM_ok_of_forall _ _ ms (fun m hm => by
      obtain ⟨h1, h2, _⟩ := hrange m hm
      rw [extractSection_ok (splitNL content) m.startLine m.endLine h1 h2]
      rfl)]
  · rw [List.map_map, hsplitc]
    have hfst := congrArg (List.map Prod.fst) hmap
    rw [List.map_map, List.map_map] at hfst
    have hjoin := congrArg (List.map joinNL) hfst
    rw [List.map_map, List.map_map] at hjoin
    have hstrip : (fun s => joinNL
        (if s.hasDivider then (splitNL s.content).tail else splitNL s.content)) =
        stripLeadingDivider := by
      funext s
      unfold stripLeadingDivider
      cases h : s.hasDivider <;> simp [joinNL_splitNL]
    calc ms.map (StreamSection.content ∘ fun m =>
          (⟨joinNL (((splitNL content).drop (m.startLine - 1)).take
            (m.endLine + 1 - m.startLine)), m.hash, (m.startLine, m.endLine),
            m.estimatedSize, m.hasDivider⟩ : StreamSection))
        = ms.map (joinNL ∘ (Prod.fst ∘ fun m =>
            ((((splitNL content).drop (m.startLine - 1)).take
              (m.endLine + 1 - m.startLine)), m.hasDivider))) := rfl
      _ = (splitLoop (splitNL content) 0 [] false none 0).map (joinNL ∘
            (Prod.fst ∘ fun s =>
              ((if s.hasDivider then (splitNL s.content).tail
                else splitNL s.content), s.hasDivider))) := hjoin
      _ = (splitLoop (splitNL content) 0 [] false none 0).map
            stripLeadingDivider := by rw [← hstrip]; rfl

/-- **C3 witness**: the amended equivalence at the concrete content
`"Intro\nmore\n---:\nBody"`. -/
theorem strategies_equivalent_witness :
    ∃ ss, streamSplit (str "Intro\nmore\n---:\nBody") = .ok ss ∧
      ss.map StreamSection.content =
        (splitContent (str "Intro\nmore\n---:\nBody")).map stripLeadingDivider :=
  strategies_equivalent (str "Intro\nmore\n---:\nBody") (by decide) (by decide)
    (by decide) (by decide) (by decide) (by decide)

/-! ### FileWriter (src: part_003) and DocumentReconstructor.reconstructDocument,
over a flat in-memory output directory (association list filename →
file content; a write shadows any previous entry). -/

abbrev FS := List (Str × Str)

def fsRead (fs : FS) (name : Str) : Option Str :=
  (fs.find? (fun p => p.1 == name)).map Prod.snd

def fsWrite (fs : FS) (name content : Str) : FS := (name, content) :: fs

/-- `TimestampUtils.createDividerLine`; the formatted timestamp
(`generateTimestamp`, a function of the wall clock) is supplied as an
input. -/
def createDividerLine (hash ts : Str) : Str := str "---: " ++ hash ++ str " " ++ ts

/-- Index of the first occurrence of `pat` in `s` (JS `indexOf`). -/
def findSubstrIdx (pat : Str) : Str → Option Nat
  | [] => if pat.isPrefixOf [] then some 0 else none
  | c :: t =>
    if pat.isPrefixOf (c :: t) then some 0
    else (findSubstrIdx pat t).map (· + 1)

/-- JavaScript `String.prototype.replace` with a plain-string pattern:
replace the first occurrence, or return the string unchanged. -/
def replaceFirst (pat repl s : Str) : Str :=
  match findSubstrIdx pat s with
  | none => s
  | some i => s.take i ++ repl ++ s.drop (i + pat.length)

/-- `FileWriter.modifyDividerInContent`: rewrite the section's own divider
line (when present and truthy) to the canonical `---: <hash> <timestamp>`
form. -/
def modifyDividerInContent (s : Sect) (hash ts : Str) : Str :=
  match s.originalDividerLine with
  | some d =>
    if s.hasDivider && !d.isEmpty then
      replaceFirst d (createDividerLine hash ts) s.content
    else s.content
  | none => s.content

/-- The outcome record of `FileWriter.writeSection` (only the fields the
claims need: success flag, hash, filename, and the section's index and
divider flag echoed back for the reference pass). -/
structure WriteResult where
  success : Bool
  hash : Str
  filename : Str
  index : Nat
  hasDivider : Bool
deriving DecidableEq, Repr

/-- `FileWriter.writeSection` (default `.md` extension), with `sourceBase`
standing for `path.basename(options.sourceFilename, ext)`; throws (as
`Except.error`) when the section hash computation throws. -/
def writeSection (fs : FS) (s : Sect) (sourceBase : Option Str)
    (overwrite : Bool) (ts : Str) : Except Str (WriteResult × FS) := do
  let hash ← generateSectionHash s
  let filename :=
    match sourceBase with
    | some base =>
      if s.index = 0 && !s.hasDivider && !base.isEmpty then base ++ str ".md"
      else hash ++ str ".md"
    | none => hash ++ str ".md"
  if !overwrite && (fsRead fs filename).isSome then
    .ok (⟨false, hash, filename, s.index, s.hasDivider⟩, fs)
  else
    .ok (⟨true, hash, filename, s.index, s.hasDivider⟩,
      fsWrite fs filename (modifyDividerInContent s hash ts))

/-- The first pass of `FileWriter.writeSections`: write every section,
recording a failed result when `writeSection` throws; `tss i` is the
formatted timestamp taken at the `i`-th write. -/
def writeSectionsLoop (fs : FS) (sections : List Sect) (sourceBase : Option Str)
    (overwrite : Bool) (tss : Nat → Str) (i : Nat) : List WriteResult × FS :=
  match sections with
  | [] => ([], fs)
  | s :: rest =>
    match writeSection fs s sourceBase overwrite (tss i) with
    | .ok (r, fs') =>
      let (rs, fs'') := writeSectionsLoop fs' rest sourceBase overwrite tss (i+1)
      (r :: rs, fs'')
    | .error _ =>
      let (rs, fs'') := writeSectionsLoop fs rest sourceBase overwrite tss (i+1)
      (⟨false, [], [], s.index, false⟩ :: rs, fs'')

/-- `path.basename(name, ext)` for flat names. -/
def nodeBasenameExt (name ext : Str) : Str :=
  if ext.length < name.length && ext.isSuffixOf name then
    name.take (name.length - ext.length)
  else name

/-- `FileWriter.addReferencesToFirstFile`: append one `---: <hash>` line
per successfully written non-anchor section to the anchor file, after one
blank line. -/
def addReferencesToFirstFile (fs : FS) (results : List WriteResult) : FS :=
  match results.find? (fun r => r.success && r.index == 0 && !r.hasDivider) with
  | none => fs
  | some first =>
    let others := results.filter (fun r => r.success && r.index != 0)
    if others.isEmpty then fs
    else
      match fsRead fs first.filename with
      | none => fs
      | some current =>
        let referenceLines := others.map
          (fun r => str "---: " ++ nodeBasenameExt r.filename (str ".md"))
        fsWrite fs first.filename
          (jsTrim current ++ str "\n\n" ++ joinNL referenceLines ++ str "\n")

/-- `FileWriter.writeSections` (first pass, then the reference pass unless
`addReferences` is disabled). -/
def writeSections (fs : FS) (sections : List Sect) (sourceBase : Option Str)
    (overwrite : Bool) (addReferences : Bool) (tss : Nat → Str) :
    List WriteResult × FS :=
  let (results, fs') := writeSectionsLoop fs sections sourceBase overwrite tss 0
  (results, if addReferences then addReferencesToFirstFile fs' results else fs')

/-- JavaScript `sections.join("\n\n")`. -/
def joinBlank : List Str → Str
  | [] => []
  | [l] => l
  | l :: l' :: ls => l ++ str "\n\n" ++ joinBlank (l' :: ls)

/-- `DocumentReconstructor.combineReferencedFiles` (default `.md`
extension): resolve each reference in order, skip missing files, clean each
resolved file, and join everything with one blank line. -/
def combineReferencedFiles (fs : FS) (baseContent : Str)
    (refs : List Reference) : Str :=
  joinBlank (baseContent :: refs.filterMap (fun r =>
    (fsRead fs (r.hash ++ str ".md")).map cleanReferencedContent))

/-- `DocumentReconstructor.reconstructDocument`, reading the anchor and the
referenced files from the same flat directory. -/
def reconstructDocument (fs : FS) (mainFile : Str) : Except Str Str :=
  match fsRead fs mainFile with
  | none => .error (str "Main file not found")
  | some mainContent =>
    let er := extractReferences mainContent
    if er.references.isEmpty then .ok er.baseContent
    else .ok (combineReferencedFiles fs er.baseContent er.references)

/-- **C2 counterexample**: the document `"A\n---:\nB\n---:\nB"` has an
anchor section and `K = 2` non-anchor sections, but its two non-anchor
sections have identical content and therefore the same hash: the second
write is skipped (`file_exists`), only one reference is appended, and
reconstruction yields only one resolved body instead of two — the output
is not content-identical to the original up to divider canonicalization
and blank-line joins. -/
theorem roundTrip_counterexample :
    (splitContent (str "A\n---:\nB\n---:\nB")).length = 3 ∧
    ((splitContent (str "A\n---:\nB\n---:\nB")).getD 0 default).hasDivider = false ∧
    reconstructDocument
      (writeSections [] (splitContent (str "A\n---:\nB\n---:\nB"))
        (some (str "doc")) false true (fun _ => str "12:00:00 2024/01/02")).2
      (str "doc.md") = .ok (str "A\n\n---:\nB") ∧
    str "A\n\n---:\nB" ≠
      joinBlank (str "A" :: [str "---:\nB", str "---:\nB"]) := by
  refine ⟨by decide, by decide, by decide, by decide⟩


/-! ### C2: round-trip through the writer and the reconstructor.
First, the characters a generated hash can contain. -/

/-- Every character of a `generateHash` output is an upper-case hex digit:
in particular a hex digit, not whitespace, not a newline, and fixed by
`upChar`. -/
def goodHashChar (c : Char) : Bool :=
  isUpperHexChar c && isHexChar c && !jsWhitespace c && !(c == '\n') &&
    (upChar c == c)

theorem goodHashChar_hexDigit (k : Nat) :
    goodHashChar (upChar (hexDigit (k % 16))) = true := by
  have h : k % 16 < 16 := Nat.mod_lt _ (by omega)
  set m := k % 16 with hm
  interval_cases m <;> decide

theorem wordToHex_good (x : Nat) :
    ∀ c ∈ wordToHex x, goodHashChar (upChar c) = true := by
  intro c hc
  simp only [wordToHex, List.mem_cons, List.not_mem_nil, or_false] at hc
  rcases hc with h|h|h|h|h|h|h|h <;> (subst h; exact goodHashChar_hexDigit _)

theorem sha256Hex_good (msg : List Nat) :
    ∀ c ∈ sha256Hex msg, goodHashChar (upChar c) = true := by
  simp only [sha256Hex, List.forall_mem_append]
  exact ⟨⟨⟨⟨⟨⟨⟨wordToHex_good _, wordToHex_good _⟩, wordToHex_good _⟩,
    wordToHex_good _⟩, wordToHex_good _⟩, wordToHex_good _⟩, wordToHex_good _⟩,
    wordToHex_good _⟩

theorem generateHash_good (content : Str) :
    ∀ c ∈ generateHash content, goodHashChar c = true := by
  intro c hc
  simp only [generateHash, List.mem_map] at hc
  obtain ⟨c', hc', rfl⟩ := hc
  exact sha256Hex_good _ _ (List.take_subset _ _ hc')

theorem generateHash_length (content : Str) : (generateHash content).length = 8 := by
  simp [generateHash, sha256Hex, wordToHex]

theorem generateHash_ne_nil (content : Str) : generateHash content ≠ [] := by
  intro h
  have hl := generateHash_length content
  rw [h] at hl
  simp at hl

theorem goodHashChar_props (c : Char) (h : goodHashChar c = true) :
    isHexChar c = true ∧ jsWhitespace c = false ∧ c ≠ '\n' ∧ upChar c = c := by
  simp only [goodHashChar, Bool.and_eq_true, Bool.not_eq_true', beq_iff_eq,
    beq_eq_false_iff_ne, ne_eq] at h
  exact ⟨h.1.1.1.2, h.1.1.2, h.1.2, h.2⟩

theorem map_upChar_of_good (l : Str) (h : ∀ c ∈ l, goodHashChar c = true) :
    l.map upChar = l := by
  induction l with
  | nil => rfl
  | cons c t ih =>
    simp only [List.map_cons]
    rw [(goodHashChar_props c (h c (by simp))).2.2.2,
      ih (fun c' hc' => h c' (by simp [hc']))]

/-! #### takeWhile / dropWhile utilities -/

theorem takeWhile_all {α : Type} (p : α → Bool) :
    ∀ l : List α, (∀ c ∈ l, p c = true) → l.takeWhile p = l := by
  intro l
  induction l with
  | nil => intro _; rfl
  | cons a t ih =>
    intro h
    rw [List.takeWhile_cons, if_pos (h a (by simp)),
      ih (fun c hc => h c (by simp [hc]))]

theorem dropWhile_head_no {α : Type} (p : α → Bool) (a : α) (t : List α)
    (h : p a = false) : (a :: t).dropWhile p = a :: t := by
  rw [List.dropWhile_cons, if_neg (by simp [h])]

theorem dropWhile_no {α : Type} (p : α → Bool) (l : List α)
    (h : ∀ c ∈ l, p c = false) : l.dropWhile p = l := by
  cases l with
  | nil => rfl
  | cons a t => exact dropWhile_head_no p a t (h a (by simp))

theorem dropWhile_append_head_no {α : Type} (p : α → Bool) (hs rest : List α)
    (hne : hs ≠ []) (hhd : ∀ c ∈ hs, p c = false) :
    (hs ++ rest).dropWhile p = hs ++ rest := by
  cases hs with
  | nil => exact absurd rfl hne
  | cons a t => exact dropWhile_head_no p a (t ++ rest) (hhd a (by simp))

theorem takeWhile_append_stop {α : Type} (p : α → Bool) (x : α) (r : List α) :
    ∀ hs : List α, (∀ c ∈ hs, p c = true) → p x = false →
      (hs ++ x :: r).takeWhile p = hs := by
  intro hs
  induction hs with
  | nil =>
    intro _ hx
    simp [List.takeWhile_cons, hx]
  | cons a t ih =>
    intro hall hx
    rw [List.cons_append, List.takeWhile_cons, if_pos (hall a (by simp)),
      ih (fun c hc => hall c (by simp [hc])) hx]

theorem dropWhile_append_stop {α : Type} (p : α → Bool) (x : α) (r : List α) :
    ∀ hs : List α, (∀ c ∈ hs, p c = true) → p x = false →
      (hs ++ x :: r).dropWhile p = x :: r := by
  intro hs
  induction hs with
  | nil =>
    intro _ hx
    simpa [List.dropWhile_cons] using dropWhile_head_no p x r hx
  | cons a t ih =>
    intro hall hx
    rw [List.cons_append, List.dropWhile_cons, if_pos (hall a (by simp))]
    exact ih (fun c hc => hall c (by simp [hc])) hx

theorem dropWhile_head_false {α : Type} (p : α → Bool) :
    ∀ (l : List α) c t, l.dropWhile p = c :: t → p c = false := by
  intro l
  induction l with
  | nil => intro c t h; simp at h
  | cons a t' ih =>
    intro c t h
    rw [List.dropWhile_cons] at h
    by_cases ha : p a = true
    · rw [if_pos ha] at h
      exact ih c t h
    · rw [if_neg ha] at h
      cases h
      simpa using ha

/-! #### jsTrim end-character facts -/

theorem jsTrim_head_not_ws (l : Str) (c : Char)
    (hc : (jsTrim l).head? = some c) : jsWhitespace c = false := by
  unfold jsTrim at hc
  rw [List.head?_reverse] at hc
  obtain ⟨w, hw⟩ := List.dropWhile_suffix
    (p := jsWhitespace) (l := (l.dropWhile jsWhitespace).reverse)
  have hX : ((l.dropWhile jsWhitespace).reverse.dropWhile jsWhitespace) ≠ [] := by
    intro h0
    rw [h0] at hc
    simp at hc
  have h1 : ((l.dropWhile jsWhitespace).reverse).getLast? = some c := by
    rw [← hw, List.getLast?_append_of_ne_nil _ hX]
    exact hc
  rw [List.getLast?_reverse] at h1
  cases hY : l.dropWhile jsWhitespace with
  | nil => rw [hY] at h1; simp at h1
  | cons a t =>
    rw [hY] at h1
    have ha : a = c := by simpa using h1
    subst ha
    exact dropWhile_head_false jsWhitespace l a t hY

theorem jsTrim_getLast_not_ws (l : Str) (c : Char)
    (hc : (jsTrim l).getLast? = some c) : jsWhitespace c = false := by
  unfold jsTrim at hc
  rw [List.getLast?_reverse] at hc
  cases hY : (l.dropWhile jsWhitespace).reverse.dropWhile jsWhitespace with
  | nil => rw [hY] at hc; simp at hc
  | cons a t =>
    rw [hY] at hc
    have ha : a = c := by simpa using hc
    subst ha
    exact dropWhile_head_false jsWhitespace _ a t hY

theorem jsTrim_idem (l : Str) : jsTrim (jsTrim l) = jsTrim l := by
  show (((jsTrim l).dropWhile jsWhitespace).reverse.dropWhile jsWhitespace).reverse
    = jsTrim l
  have h1 : (jsTrim l).dropWhile jsWhitespace = jsTrim l := by
    cases hL : jsTrim l with
    | nil => rfl
    | cons a t =>
      refine dropWhile_head_no _ a t ?_
      exact jsTrim_head_not_ws l a (by rw [hL]; rfl)
  rw [h1]
  have h2 : (jsTrim l).reverse.dropWhile jsWhitespace = (jsTrim l).reverse := by
    cases hR : (jsTrim l).reverse with
    | nil => rfl
    | cons a t =>
      refine dropWhile_head_no _ a t ?_
      refine jsTrim_getLast_not_ws l a ?_
      rw [← List.head?_reverse, hR]
      rfl
  rw [h2, List.reverse_reverse]

theorem jsTrim_ne_nil_of_mem (l : Str) (c : Char) (hc : c ∈ l)
    (hw : jsWhitespace c = false) : jsTrim l ≠ [] := by
  intro h0
  unfold jsTrim at h0
  rw [List.reverse_eq_nil_iff, List.dropWhile_eq_nil_iff] at h0
  have hall : ∀ x ∈ l.dropWhile jsWhitespace, jsWhitespace x = true := by
    intro x hx
    exact h0 x (by simpa using hx)
  have hsplit := List.takeWhile_append_dropWhile (p := jsWhitespace) (l := l)
  rw [← hsplit] at hc
  rcases List.mem_append.mp hc with h | h
  · exact absurd (List.mem_takeWhile_imp h) (by simp [hw])
  · exact absurd (hall c h) (by simp [hw])


/-! #### The last line of a string whose last character is non-blank -/

theorem splitNL_last_mem (A : Str) :
    ∀ c : Char, A.getLast? = some c → c ≠ '\n' →
      ∃ ll, (splitNL A).getLast? = some ll ∧ c ∈ ll := by
  induction A with
  | nil => intro c h _; simp at h
  | cons a t ih =>
    intro c hc hnl
    cases t with
    | nil =>
      have ha : a = c := by simpa using hc
      subst ha
      exact ⟨[a], by simp [splitNL, consHead, hnl], by simp⟩
    | cons b t' =>
      have hc' : (b :: t').getLast? = some c := by
        rw [← List.getLast?_cons_cons (a := a)]
        exact hc
      obtain ⟨ll, hll, hmem⟩ := ih c hc' hnl
      by_cases ha : a = '\n'
      · refine ⟨ll, ?_, hmem⟩
        rw [show splitNL (a :: b :: t') = [] :: splitNL (b :: t') from by
          simp [splitNL, ha]]
        cases hX : splitNL (b :: t') with
        | nil => exact absurd hX (splitNL_ne_nil _)
        | cons x xs =>
          rw [List.getLast?_cons_cons, ← hX]
          exact hll
      · rw [show splitNL (a :: b :: t') = consHead a (splitNL (b :: t')) from by
          simp [splitNL, ha]]
        cases hX : splitNL (b :: t') with
        | nil => exact absurd hX (splitNL_ne_nil _)
        | cons x xs =>
          cases xs with
          | nil =>
            rw [hX] at hll
            have hxl : x = ll := by simpa using hll
            subst hxl
            exact ⟨a :: x, by simp [consHead], by simp [hmem]⟩
          | cons y ys =>
            refine ⟨ll, ?_, hmem⟩
            simp only [consHead]
            rw [List.getLast?_cons_cons]
            rw [hX, List.getLast?_cons_cons] at hll
            exact hll

theorem splitNL_last_nonblank (A : Str)
    (h : ∃ c, A.getLast? = some c ∧ jsWhitespace c = false) :
    jsTrim ((splitNL A).getD ((splitNL A).length - 1) []) ≠ [] := by
  obtain ⟨c, hc, hw⟩ := h
  have hnl : c ≠ '\n' := by
    intro h0
    subst h0
    simp [jsWhitespace] at hw
  obtain ⟨ll, hll, hmem⟩ := splitNL_last_mem A c hc hnl
  have hgd : (splitNL A).getD ((splitNL A).length - 1) [] = ll := by
    rw [List.getD_eq_getElem?_getD, ← List.getLast?_eq_getElem?, hll]
    rfl
  rw [hgd]
  exact jsTrim_ne_nil_of_mem ll c hmem hw

/-! #### Parsing the written divider lines -/

theorem isAsciiDigit_not_ws (c : Char) (h : isAsciiDigit c = true) :
    jsWhitespace c = false := by
  simp only [isAsciiDigit, Bool.and_eq_true, decide_eq_true_eq] at h
  simp only [jsWhitespace]
  simp only [Bool.or_eq_false_iff, beq_eq_false_iff_ne, ne_eq,
    Bool.and_eq_false_iff, decide_eq_false_iff_not, not_le]
  omega

theorem parse_bare_ref (h : Str) (hne : h ≠ [])
    (hhex : ∀ c ∈ h, isHexChar c = true)
    (hnws : ∀ c ∈ h, jsWhitespace c = false) :
    parseAnnotatedDivider (str "---: " ++ h) = some (h, false) := by
  have e1 : str "---: " ++ h = '-' :: '-' :: '-' :: ':' :: ' ' :: h := rfl
  rw [e1]
  have hs : stripDividerColon ('-' :: '-' :: '-' :: ':' :: ' ' :: h) =
      some (' ' :: h) := rfl
  simp only [parseAnnotatedDivider, hs]
  rw [if_pos (by decide : jsWhitespace ' ' = true)]
  have hd1 : (' ' :: h).dropWhile jsWhitespace = h := by
    rw [List.dropWhile_cons, if_pos (by decide)]
    exact dropWhile_no _ _ hnws
  rw [hd1, takeWhile_all _ _ hhex, List.dropWhile_eq_nil_iff.mpr hhex,
    if_neg (by simpa [List.isEmpty_iff] using hne)]

theorem matchTimestamp_head_digit (ts : Str) (h : matchTimestamp ts = some []) :
    ∃ a b r, ts = a :: b :: r ∧ isAsciiDigit a = true := by
  cases ts with
  | nil => simp [matchTimestamp, twoDigits] at h
  | cons a t =>
    cases t with
    | nil => simp [matchTimestamp, twoDigits] at h
    | cons b r =>
      refine ⟨a, b, r, rfl, ?_⟩
      by_contra hnd
      have hnd' : isAsciiDigit a = false := by simpa using hnd
      simp [matchTimestamp, twoDigits, hnd'] at h

theorem enhanced_divider_line (h ts : Str) (hne : h ≠ [])
    (hhex : ∀ c ∈ h, isHexChar c = true)
    (hnws : ∀ c ∈ h, jsWhitespace c = false)
    (hts : matchTimestamp ts = some []) :
    enhancedDividerPattern (createDividerLine h ts) = true := by
  have e1 : createDividerLine h ts =
      '-' :: '-' :: '-' :: ':' :: ' ' :: (h ++ ' ' :: ts) := by
    show (str "---: " ++ h ++ str " ") ++ ts = _
    rw [show str "---: " = ['-', '-', '-', ':', ' '] from rfl,
      show str " " = [' '] from rfl]
    simp
  rw [e1]
  have hs : stripDividerColon ('-' :: '-' :: '-' :: ':' :: ' ' :: (h ++ ' ' :: ts)) =
      some (' ' :: (h ++ ' ' :: ts)) := rfl
  simp only [enhancedDividerPattern, hs]
  rw [show jsWhitespace ' ' = true from by decide]
  have hd1 : (' ' :: (h ++ ' ' :: ts)).dropWhile jsWhitespace = h ++ ' ' :: ts := by
    rw [List.dropWhile_cons, if_pos (by decide)]
    exact dropWhile_append_head_no _ _ _ hne hnws
  rw [hd1, takeWhile_append_stop _ _ _ h hhex (by decide),
    dropWhile_append_stop _ _ _ h hhex (by decide),
    show (h.isEmpty : Bool) = false from by simpa [List.isEmpty_iff] using hne]
  simp only [Bool.not_false, Bool.true_and]
  rw [show jsWhitespace ' ' = true from by decide]
  obtain ⟨a, b, r, hts', hda⟩ := matchTimestamp_head_digit ts hts
  have hd2 : (' ' :: ts).dropWhile jsWhitespace = ts := by
    rw [List.dropWhile_cons, if_pos (by decide), hts']
    exact dropWhile_head_no _ _ _ (isAsciiDigit_not_ws a hda)
  rw [hd2, hts]
  rfl


/-! #### Structure of the non-anchor sections of `splitContent` -/

/-- A section opened by a divider line: `hasDivider` is set, the recorded
divider line satisfies the bare divider pattern, and it is the first line of
the section's content. -/
def DivSection (s : Sect) : Prop :=
  s.hasDivider = true ∧ ∃ d t, s.originalDividerLine = some d ∧
    dividerPattern d = true ∧ splitNL s.content = d :: t

theorem DivSection_mk (d : Str) (ctail : List Str) (hd : dividerPattern d = true)
    (hnl : ∀ l ∈ d :: ctail, '\n' ∉ l) (idx ls le : Nat) :
    DivSection ⟨idx, joinNL (d :: ctail), true, some d, ls, le⟩ :=
  ⟨rfl, d, ctail, rfl, hd, splitNL_joinNL (d :: ctail) (by simp) hnl⟩

theorem splitLoop_all_div (rest : List Str) :
    ∀ i d ctail sidx, dividerPattern d = true →
      (∀ l ∈ d :: ctail, '\n' ∉ l) → (∀ l ∈ rest, '\n' ∉ l) →
      ∀ s ∈ splitLoop rest i (d :: ctail) true (some d) sidx, DivSection s := by
  induction rest with
  | nil =>
    intro i d ctail sidx hd hcur _ s hs
    simp only [splitLoop] at hs
    rw [if_neg (by simp)] at hs
    have hse : s = ⟨sidx, joinNL (d :: ctail), true, some d,
        i - (d :: ctail).length + 1, i⟩ := by simpa using hs
    subst hse
    exact DivSection_mk d ctail hd hcur _ _ _
  | cons l rest ih =>
    intro i d ctail sidx hd hcur hrest s hs
    simp only [splitLoop] at hs
    by_cases hl : dividerPattern l = true
    · rw [if_pos hl, if_neg (by simp)] at hs
      rcases List.mem_cons.mp hs with h0 | h0
      · subst h0
        exact DivSection_mk d ctail hd hcur _ _ _
      · refine ih (i+1) l [] (sidx+1) hl ?_
          (fun l' hl' => hrest l' (by simp [hl'])) s h0
        intro l' hl'
        have : l' = l := by simpa using hl'
        subst this
        exact hrest l' (by simp)
    · rw [if_neg hl] at hs
      rw [show (d :: ctail) ++ [l] = d :: (ctail ++ [l]) from rfl] at hs
      refine ih (i+1) d (ctail ++ [l]) sidx hd ?_
        (fun l' hl' => hrest l' (by simp [hl'])) s hs
      intro l' hl'
      rcases List.mem_cons.mp hl' with rfl | hl''
      · exact hcur _ (by simp)
      · rcases List.mem_append.mp hl'' with h1 | h1
        · exact hcur l' (by simp [h1])
        · have : l' = l := by simpa using h1
          subst this
          exact hrest l' (by simp)

theorem splitLoop_tail_div (rest : List Str) :
    ∀ i cur hd dl sidx, (∀ l ∈ cur, '\n' ∉ l) → (∀ l ∈ rest, '\n' ∉ l) →
      ∀ s ∈ (splitLoop rest i cur hd dl sidx).tail, DivSection s := by
  induction rest with
  | nil =>
    intro i cur hd dl sidx _ _ s hs
    simp only [splitLoop] at hs
    split at hs <;> simp at hs
  | cons l rest ih =>
    intro i cur hd dl sidx hcur hrest s hs
    simp only [splitLoop] at hs
    by_cases hl : dividerPattern l = true
    · rw [if_pos hl] at hs
      by_cases hce : cur.isEmpty
      · rw [if_pos hce] at hs
        refine splitLoop_all_div rest (i+1) l [] sidx hl ?_
          (fun l' hl' => hrest l' (by simp [hl'])) s (List.mem_of_mem_tail hs)
        intro l' hl'
        have : l' = l := by simpa using hl'
        subst this
        exact hrest l' (by simp)
      · rw [if_neg hce] at hs
        simp only [List.tail_cons] at hs
        refine splitLoop_all_div rest (i+1) l [] (sidx+1) hl ?_
          (fun l' hl' => hrest l' (by simp [hl'])) s hs
        intro l' hl'
        have : l' = l := by simpa using hl'
        subst this
        exact hrest l' (by simp)
    · rw [if_neg hl] at hs
      refine ih (i+1) (cur ++ [l]) hd dl sidx ?_
        (fun l' hl' => hrest l' (by simp [hl'])) s hs
      intro l' hl'
      rcases List.mem_append.mp hl' with h1 | h1
      · exact hcur l' h1
      · have : l' = l := by simpa using h1
        subst this
        exact hrest l' (by simp)

theorem splitContent_tail_div (T : Str) :
    ∀ s ∈ (splitContent T).tail, DivSection s := by
  intro s hs
  unfold splitContent at hs
  by_cases hT : T.isEmpty
  · rw [if_pos hT] at hs
    simp at hs
  · rw [if_neg hT] at hs
    exact splitLoop_tail_div (splitNL T) 0 [] false none 0 (by simp)
      (splitNL_no_newline T) s hs

/-- The `index` fields of `splitContent` are `0, 1, 2, ...` (restated at the
`getD` level for direct use; the first pass of `splitContent_cover`). -/
theorem splitContent_index (T : Str) (hT : T ≠ []) :
    ∀ k, k < (splitContent T).length → ((splitContent T).getD k default).index = k := by
  have hne : ¬T.isEmpty = true := by simpa [List.isEmpty_iff] using hT
  unfold splitContent
  rw [if_neg hne]
  cases hs : splitNL T with
  | nil => exact absurd hs (splitNL_ne_nil T)
  | cons l0 ls =>
    simp only [splitLoop, List.isEmpty_nil, if_true]
    split
    · have h5 := (splitLoop_cover ls (0+1) [l0] true (some l0) 0 (by simp)
        (by simp)).2.2.2.2
      intro k hk
      simpa using h5 k (by simpa using hk)
    · rw [show ([] : List Str) ++ [l0] = [l0] from rfl]
      have h5 := (splitLoop_cover ls (0+1) [l0] false none 0 (by simp)
        (by simp)).2.2.2.2
      intro k hk
      simpa using h5 k (by simpa using hk)

theorem DivSection_content_ne_nil (s : Sect) (h : DivSection s) :
    s.content ≠ [] := by
  obtain ⟨_, d, t, _, hd, hsp⟩ := h
  intro h0
  rw [h0] at hsp
  have h1 : ([] : Str) :: ([] : List Str) = d :: t := by simpa [splitNL] using hsp
  cases h1
  simp [dividerPattern] at hd


/-! #### Shape of the files the writer produces -/

/-- The hash `FileWriter.writeSection` computes for a section with non-empty
content. -/
def sectHash (s : Sect) : Str := generateHash (contentToHash s)

theorem generateSectionHash_ok (s : Sect) (h : s.content ≠ []) :
    generateSectionHash s = .ok (sectHash s) := by
  unfold generateSectionHash
  rw [if_neg (by simpa [List.isEmpty_iff] using h)]
  rfl

theorem modify_of_div (s : Sect) (d : Str) (hash ts : Str) (t : List Str)
    (hdv : s.hasDivider = true) (hodl : s.originalDividerLine = some d)
    (hd : dividerPattern d = true) (hsp : splitNL s.content = d :: t) :
    modifyDividerInContent s hash ts =
      createDividerLine hash ts ++ s.content.drop d.length := by
  have hdne : d ≠ [] := by
    intro h0
    rw [h0] at hd
    simp [dividerPattern] at hd
  have hcontent : s.content = joinNL (d :: t) := by
    have h := joinNL_splitNL s.content
    rw [hsp] at h
    exact h.symm
  simp only [modifyDividerInContent, hodl]
  rw [if_pos (by
    rw [hdv, show (d.isEmpty : Bool) = false from by
      simpa [List.isEmpty_iff] using hdne]
    rfl)]
  have hpre : d.isPrefixOf s.content = true := by
    rw [List.isPrefixOf_iff_prefix]
    cases t with
    | nil =>
      rw [hcontent]
      show d <+: joinNL [d]
      simp [joinNL]
    | cons t0 ts' =>
      rw [hcontent, joinNL_cons _ _ (by simp)]
      exact List.prefix_append _ _
  have hfind : findSubstrIdx d s.content = some 0 := by
    cases hc : s.content with
    | nil =>
      rw [hc] at hpre
      simp [findSubstrIdx, hpre]
    | cons c ct =>
      rw [hc] at hpre
      simp [findSubstrIdx, hpre]
  unfold replaceFirst
  rw [hfind]
  simp

theorem clean_of_written (s : Sect) (d : Str) (t : List Str) (hash ts : Str)
    (hsp : splitNL s.content = d :: t)
    (hhne : hash ≠ []) (hgood : ∀ c ∈ hash, goodHashChar c = true)
    (hts : matchTimestamp ts = some []) (htnl : '\n' ∉ ts) :
    cleanReferencedContent (createDividerLine hash ts ++ s.content.drop d.length) =
      str "---:" ++ s.content.drop d.length := by
  have hhex : ∀ c ∈ hash, isHexChar c = true :=
    fun c hc => (goodHashChar_props c (hgood c hc)).1
  have hnws : ∀ c ∈ hash, jsWhitespace c = false :=
    fun c hc => (goodHashChar_props c (hgood c hc)).2.1
  have hcd_nl : '\n' ∉ createDividerLine hash ts := by
    intro hmem
    simp only [createDividerLine, List.mem_append] at hmem
    rcases hmem with ((h1 | h1) | h1) | h1
    · exact absurd h1 (by decide)
    · exact (goodHashChar_props _ (hgood _ h1)).2.2.1 rfl
    · exact absurd h1 (by decide)
    · exact htnl h1
  have henh := enhanced_divider_line hash ts hhne hhex hnws hts
  have hcontent : s.content = joinNL (d :: t) := by
    have h := joinNL_splitNL s.content
    rw [hsp] at h
    exact h.symm
  cases t with
  | nil =>
    have hdrop : s.content.drop d.length = [] := by
      rw [hcontent]
      show (joinNL [d]).drop d.length = []
      simp [joinNL]
    rw [hdrop, List.append_nil]
    simp only [cleanReferencedContent, splitNL_of_no_newline _ hcd_nl]
    rw [if_pos henh]
    simp [joinNL, hdrop]
  | cons t0 ts' =>
    have hdrop : s.content.drop d.length = '\n' :: joinNL (t0 :: ts') := by
      rw [hcontent, joinNL_cons _ _ (by simp), List.drop_left]
    rw [hdrop]
    have hsplit : splitNL (createDividerLine hash ts ++ '\n' :: joinNL (t0 :: ts')) =
        createDividerLine hash ts :: t0 :: ts' := by
      rw [splitNL_append, splitNL_of_no_newline _ hcd_nl,
        splitNL_joinNL (t0 :: ts') (by simp) (fun l hl =>
          splitNL_no_newline s.content l (by rw [hsp]; simp [hl]))]
      rfl
    simp only [cleanReferencedContent, hsplit]
    rw [if_pos henh, joinNL_cons _ _ (by simp)]


/-! #### extractReferences on the anchor file the writer produces -/

theorem collectRefs_append (xs : List Str) :
    ∀ ys i, collectRefs (xs ++ ys) i =
      collectRefs xs i ++ collectRefs ys (i + xs.length) := by
  induction xs with
  | nil => intro ys i; simp [collectRefs]
  | cons l xs ih =>
    intro ys i
    cases hp : parseAnnotatedDivider l with
    | none =>
      simp only [List.cons_append, collectRefs, hp, List.append_eq]
      rw [ih ys (i+1)]
      congr 2
      simp only [List.length_cons]
      omega
    | some q =>
      obtain ⟨qh, qb⟩ := q
      simp only [List.cons_append, collectRefs, hp, List.append_eq]
      rw [ih ys (i+1)]
      simp only [List.cons_append, List.length_cons]
      congr 3
      omega

theorem collectRefs_all_none (xs : List Str) :
    ∀ i, (∀ l ∈ xs, parseAnnotatedDivider l = none) → collectRefs xs i = [] := by
  induction xs with
  | nil => intro i _; rfl
  | cons l xs ih =>
    intro i h
    simp only [collectRefs, h l (by simp)]
    exact ih (i+1) (fun l' hl' => h l' (by simp [hl']))

theorem firstRefIndex_append_none (xs : List Str) :
    ∀ ys i, (∀ l ∈ xs, parseAnnotatedDivider l = none) →
      firstRefIndex (xs ++ ys) i = firstRefIndex ys (i + xs.length) := by
  induction xs with
  | nil => intro ys i _; simp [firstRefIndex]
  | cons l xs ih =>
    intro ys i h
    simp only [List.cons_append, firstRefIndex, h l (by simp), List.append_eq]
    rw [if_neg (by simp)]
    rw [ih ys (i+1) (fun l' hl' => h l' (by simp [hl']))]
    congr 1
    simp only [List.length_cons]
    omega

theorem collectRefs_refLines (hs : List Str) :
    ∀ i, (∀ h ∈ hs, h ≠ [] ∧ ∀ c ∈ h, goodHashChar c = true) →
      (collectRefs (hs.map fun h => str "---: " ++ h) i).map Reference.hash = hs := by
  induction hs with
  | nil => intro i _; rfl
  | cons h hs ih =>
    intro i hg
    obtain ⟨hne, hgood⟩ := hg h (by simp)
    have hp : parseAnnotatedDivider (str "---: " ++ h) = some (h, false) :=
      parse_bare_ref h hne (fun c hc => (goodHashChar_props c (hgood c hc)).1)
        (fun c hc => (goodHashChar_props c (hgood c hc)).2.1)
    simp only [List.map_cons, collectRefs, hp]
    rw [map_upChar_of_good h hgood, ih (i+1) (fun h' hh' => hg h' (by simp [hh']))]

theorem backOverBlanks_step_blank (lines : List Str) (k : Nat)
    (h : jsTrim (lines.getD k []) = []) :
    backOverBlanks lines (k+1) = backOverBlanks lines k := by
  simp only [backOverBlanks]
  rw [if_pos h]

theorem backOverBlanks_step_nonblank (lines : List Str) (k : Nat)
    (h : ¬jsTrim (lines.getD k []) = []) :
    backOverBlanks lines (k+1) = k+1 := by
  simp only [backOverBlanks]
  rw [if_neg h]

theorem extractReferences_updated_anchor (A : Str) (hs : List Str)
    (hA : ∀ l ∈ splitNL A, parseAnnotatedDivider l = none)
    (hAtrim : jsTrim A = A)
    (hAlast : A = [] ∨ ∃ c, A.getLast? = some c ∧ jsWhitespace c = false)
    (hhs : hs ≠ [])
    (hgood : ∀ h ∈ hs, h ≠ [] ∧ ∀ c ∈ h, goodHashChar c = true) :
    (extractReferences (A ++ str "\n\n" ++
        joinNL (hs.map fun h => str "---: " ++ h) ++ str "\n")).baseContent = A ∧
    (extractReferences (A ++ str "\n\n" ++
        joinNL (hs.map fun h => str "---: " ++ h) ++ str "\n")).references.map
      Reference.hash = hs := by
  have hRLne : (hs.map fun h => str "---: " ++ h) ≠ [] := by
    simpa using hhs
  have hRLnl : ∀ l ∈ hs.map fun h => str "---: " ++ h, '\n' ∉ l := by
    intro l hl
    obtain ⟨h, hh, rfl⟩ := List.mem_map.mp hl
    intro hmem
    rcases List.mem_append.mp hmem with h1 | h1
    · exact absurd h1 (by decide)
    · exact (goodHashChar_props _ ((hgood h hh).2 _ h1)).2.2.1 rfl
  have hU : A ++ str "\n\n" ++ joinNL (hs.map fun h => str "---: " ++ h) ++ str "\n" =
      A ++ '\n' :: ('\n' :: (joinNL (hs.map fun h => str "---: " ++ h) ++ ['\n'])) := by
    rw [show str "\n\n" = ['\n', '\n'] from rfl, show str "\n" = ['\n'] from rfl]
    simp
  rw [hU]
  have hlines : splitNL (A ++ '\n' ::
      ('\n' :: (joinNL (hs.map fun h => str "---: " ++ h) ++ ['\n']))) =
      splitNL A ++ ([] :: ((hs.map fun h => str "---: " ++ h) ++ [[]])) := by
    rw [splitNL_append]
    congr 1
    rw [show splitNL ('\n' :: (joinNL (hs.map fun h => str "---: " ++ h) ++ ['\n'])) =
      [] :: splitNL (joinNL (hs.map fun h => str "---: " ++ h) ++ ['\n']) from by
        simp [splitNL]]
    congr 1
    rw [show (joinNL (hs.map fun h => str "---: " ++ h) ++ ['\n'] : Str) =
      joinNL (hs.map fun h => str "---: " ++ h) ++ '\n' :: [] from rfl, splitNL_append]
    rw [splitNL_joinNL _ hRLne hRLnl]
    rfl
  have hparse_nil : parseAnnotatedDivider ([] : Str) = none := rfl
  have hfri : firstRefIndex (splitNL A ++
      ([] :: ((hs.map fun h => str "---: " ++ h) ++ [[]]))) 0 =
      some ((splitNL A).length + 1) := by
    rw [firstRefIndex_append_none _ _ 0 hA]
    rw [show firstRefIndex ([] :: ((hs.map fun h => str "---: " ++ h) ++ [[]]))
        (0 + (splitNL A).length) =
      firstRefIndex ((hs.map fun h => str "---: " ++ h) ++ [[]])
        (0 + (splitNL A).length + 1) from by
        simp [firstRefIndex, hparse_nil]]
    cases hhs' : hs with
    | nil => exact absurd hhs' hhs
    | cons h0 hs' =>
      obtain ⟨hne0, hgood0⟩ := hgood h0 (by rw [hhs']; simp)
      have hp0 : parseAnnotatedDivider (str "---: " ++ h0) = some (h0, false) :=
        parse_bare_ref h0 hne0 (fun c hc => (goodHashChar_props c (hgood0 c hc)).1)
          (fun c hc => (goodHashChar_props c (hgood0 c hc)).2.1)
      simp [firstRefIndex, hp0]
  have hrefs : (collectRefs (splitNL A ++
      ([] :: ((hs.map fun h => str "---: " ++ h) ++ [[]]))) 0).map Reference.hash
      = hs := by
    rw [collectRefs_append, collectRefs_all_none _ 0 hA, List.nil_append]
    rw [show collectRefs ([] :: ((hs.map fun h => str "---: " ++ h) ++ [[]]))
        (0 + (splitNL A).length) =
      collectRefs ((hs.map fun h => str "---: " ++ h) ++ [[]])
        (0 + (splitNL A).length + 1) from by
        simp [collectRefs, hparse_nil]]
    rw [collectRefs_append]
    rw [show collectRefs [[]] (0 + (splitNL A).length + 1 +
        (hs.map fun h => str "---: " ++ h).length) = [] from by
        simp [collectRefs, hparse_nil]]
    rw [List.append_nil]
    exact collectRefs_refLines hs _ hgood
  simp only [extractReferences, hlines, hfri, hrefs]
  refine ⟨?_, trivial⟩
  rcases hAlast with hAnil | hAlast'
  · subst hAnil
    rw [show splitNL ([] : Str) = [[]] from rfl]
    rw [show ([[]] : List Str).length + 1 = 2 from rfl]
    rw [backOverBlanks_step_blank _ 1 (by
      rw [List.getD_eq_getElem?_getD, List.getElem?_append_right (by simp)]
      simp [jsTrim])]
    rw [backOverBlanks_step_blank _ 0 (by
      rw [List.getD_eq_getElem?_getD, List.getElem?_append_left (by simp)]
      simp [jsTrim])]
    simp [backOverBlanks, joinNL, jsTrim]
  · have hAne : A ≠ [] := by
      obtain ⟨c, hc, -⟩ := hAlast'
      intro h0
      rw [h0] at hc
      simp at hc
    have hALpos : 0 < (splitNL A).length := List.length_pos.mpr (splitNL_ne_nil A)
    rw [backOverBlanks_step_blank _ (splitNL A).length (by
      rw [List.getD_eq_getElem?_getD, List.getElem?_append_right (le_refl _)]
      simp [jsTrim])]
    obtain ⟨m, hm⟩ : ∃ m, (splitNL A).length = m + 1 :=
      ⟨(splitNL A).length - 1, by omega⟩
    rw [hm, backOverBlanks_step_nonblank _ m (by
      rw [List.getD_eq_getElem?_getD, List.getElem?_append_left (by omega),
        ← List.getD_eq_getElem?_getD]
      have := splitNL_last_nonblank A hAlast'
      rw [hm] at this
      simpa using this)]
    rw [← hm, List.take_left, joinNL_splitNL, hAtrim]


/-! #### The writer loop on divider sections -/

/-- The directory entries the writer loop adds for a run of divider
sections (most recent write first). -/
def expectedWrites (sections : List Sect) (tss : Nat → Str) (i : Nat) : FS :=
  match sections with
  | [] => []
  | s :: rest => expectedWrites rest tss (i+1) ++
      [(sectHash s ++ str ".md", modifyDividerInContent s (sectHash s) (tss i))]

theorem fsRead_cons_ne (n name c : Str) (fs : FS) (h : n ≠ name) :
    fsRead ((n, c) :: fs) name = fsRead fs name := by
  unfold fsRead
  rw [List.find?_cons_of_neg]
  simpa using h

theorem fsRead_cons_self (n c : Str) (fs : FS) :
    fsRead ((n, c) :: fs) n = some c := by
  unfold fsRead
  rw [List.find?_cons_of_pos]
  · rfl
  · simp

theorem fsRead_append_none (xs fs : FS) (name : Str)
    (h : ∀ e ∈ xs, e.1 ≠ name) :
    fsRead (xs ++ fs) name = fsRead fs name := by
  induction xs with
  | nil => rfl
  | cons e xs ih =>
    obtain ⟨n, c⟩ := e
    rw [List.cons_append, fsRead_cons_ne n name c _ (h (n, c) (by simp))]
    exact ih (fun e' he' => h e' (by simp [he']))

theorem append_md_ne (h₁ h₂ m : Str) (h : h₁ ≠ h₂) : h₁ ++ m ≠ h₂ ++ m := by
  intro h0
  exact h (List.append_cancel_right h0)

theorem expectedWrites_name (sections : List Sect) :
    ∀ tss i e, e ∈ expectedWrites sections tss i →
      ∃ s ∈ sections, e.1 = sectHash s ++ str ".md" := by
  induction sections with
  | nil => intro tss i e he; simp [expectedWrites] at he
  | cons s rest ih =>
    intro tss i e he
    simp only [expectedWrites] at he
    rcases List.mem_append.mp he with h1 | h1
    · obtain ⟨s', hs', he'⟩ := ih tss (i+1) e h1
      exact ⟨s', by simp [hs'], he'⟩
    · have he' := List.mem_singleton.mp h1
      refine ⟨s, by simp, by rw [he']⟩

theorem expectedWrites_read (sections : List Sect) :
    ∀ (tss : Nat → Str) i fs j, j < sections.length →
      ((sections.map sectHash).Nodup) →
      fsRead (expectedWrites sections tss i ++ fs)
        (sectHash (sections.getD j default) ++ str ".md") =
      some (modifyDividerInContent (sections.getD j default)
        (sectHash (sections.getD j default)) (tss (i + j))) := by
  induction sections with
  | nil => intro tss i fs j hj _; simp at hj
  | cons s rest ih =>
    intro tss i fs j hj hnd
    simp only [expectedWrites, List.append_assoc]
    cases j with
    | zero =>
      simp only [List.getD_cons_zero]
      rw [fsRead_append_none _ _ _ ?names]
      case names =>
        intro e he
        obtain ⟨s', hs', he'⟩ := expectedWrites_name rest tss (i+1) e he
        rw [he']
        apply append_md_ne
        intro h0
        simp only [List.map_cons] at hnd
        have hne := (List.nodup_cons.mp hnd).1
        have hm : sectHash s ∈ rest.map sectHash := by
          rw [← h0]
          exact List.mem_map_of_mem _ hs'
        exact hne hm
      rw [List.singleton_append, fsRead_cons_self]
      simp
    | succ j' =>
      simp only [List.getD_cons_succ]
      rw [ih tss (i+1) _ j' (by simpa using Nat.lt_of_succ_lt_succ hj) (by
        simp only [List.map_cons] at hnd
        exact hnd.of_cons)]
      have harith : i + 1 + j' = i + (j' + 1) := by omega
      rw [harith]

theorem writeLoop_spec (rest : List Sect) :
    ∀ (i : Nat) (fs : FS) (sb : Option Str) (tss : Nat → Str),
      (∀ s ∈ rest, DivSection s) →
      ((rest.map sectHash).Nodup) →
      (∀ s ∈ rest, fsRead fs (sectHash s ++ str ".md") = none) →
      writeSectionsLoop fs rest sb false tss i =
        (rest.map (fun s => ⟨true, sectHash s, sectHash s ++ str ".md", s.index,
          s.hasDivider⟩),
         expectedWrites rest tss i ++ fs) := by
  induction rest with
  | nil => intro i fs sb tss _ _ _; simp [writeSectionsLoop, expectedWrites]
  | cons s rest ih =>
    intro i fs sb tss hdiv hnd hread
    have hds := hdiv s (by simp)
    have hcne : s.content ≠ [] := DivSection_content_ne_nil s hds
    have hhash := generateSectionHash_ok s hcne
    have hrd : fsRead fs (sectHash s ++ str ".md") = none := hread s (by simp)
    have hws : writeSection fs s sb false (tss i) =
        .ok (⟨true, sectHash s, sectHash s ++ str ".md", s.index, s.hasDivider⟩,
          fsWrite fs (sectHash s ++ str ".md")
            (modifyDividerInContent s (sectHash s) (tss i))) := by
      cases sb with
      | none =>
        simp [writeSection, hhash, hrd, Bind.bind, Except.bind, fsWrite]
      | some base =>
        simp [writeSection, hhash, hds.1, hrd, Bind.bind, Except.bind, fsWrite]
    simp only [writeSectionsLoop, hws]
    have hrest := ih (i+1) (fsWrite fs (sectHash s ++ str ".md")
        (modifyDividerInContent s (sectHash s) (tss i))) sb tss
      (fun s' hs' => hdiv s' (by simp [hs']))
      (by simp only [List.map_cons] at hnd; exact hnd.of_cons)
      ?reads
    case reads =>
      intro s' hs'
      rw [show fsWrite fs (sectHash s ++ str ".md")
          (modifyDividerInContent s (sectHash s) (tss i)) =
        (sectHash s ++ str ".md", modifyDividerInContent s (sectHash s) (tss i))
          :: fs from rfl]
      rw [fsRead_cons_ne _ _ _ _ ?ne]
      case ne =>
        apply append_md_ne
        intro h0
        simp only [List.map_cons] at hnd
        have hne := (List.nodup_cons.mp hnd).1
        have hm : sectHash s ∈ rest.map sectHash := by
          rw [h0]
          exact List.mem_map_of_mem _ hs'
        exact hne hm
      exact hread s' (by simp [hs'])
    rw [hrest]
    simp [fsWrite, expectedWrites, List.append_assoc]


/-! #### Remaining utilities for the round trip -/

theorem firstRefIndex_none_of_all (lines : List Str) :
    ∀ i, (∀ l ∈ lines, parseAnnotatedDivider l = none) →
      firstRefIndex lines i = none := by
  induction lines with
  | nil => intro i _; rfl
  | cons l ls ih =>
    intro i h
    simp only [firstRefIndex, h l (by simp)]
    rw [if_neg (by simp)]
    exact ih (i+1) (fun l' hl' => h l' (by simp [hl']))

theorem filterMap_eq_map_of_some {α β : Type} (f : α → Option β) (g : α → β) :
    ∀ l : List α, (∀ a ∈ l, f a = some (g a)) → l.filterMap f = l.map g := by
  intro l
  induction l with
  | nil => intro _; rfl
  | cons a t ih =>
    intro h
    simp only [List.filterMap_cons, h a (by simp), List.map_cons]
    rw [ih (fun a' ha' => h a' (by simp [ha']))]

theorem nodeBasename_hash (h : Str) (hne : h ≠ []) :
    nodeBasenameExt (h ++ str ".md") (str ".md") = h := by
  have hcond : ((str ".md").length < (h ++ str ".md").length &&
      (str ".md").isSuffixOf (h ++ str ".md")) = true := by
    simp only [Bool.and_eq_true, decide_eq_true_eq, List.isSuffixOf_iff_suffix]
    refine ⟨?_, List.suffix_append _ _⟩
    have := List.length_pos.mpr hne
    simp only [List.length_append]
    omega
  unfold nodeBasenameExt
  rw [if_pos hcond,
    show (h ++ str ".md").length - (str ".md").length = h.length from by
      simp [List.length_append],
    List.take_left]

theorem filterMap_via_hashes {γ : Type} (f : Reference → Option γ)
    (g : Str → Option γ) (hfg : ∀ r, f r = g r.hash) :
    ∀ (refs : List Reference) (hs : List Str),
      refs.map Reference.hash = hs →
      refs.filterMap f = hs.filterMap g := by
  intro refs
  induction refs with
  | nil => intro hs h; rw [← h]; rfl
  | cons r rs ih =>
    intro hs h
    cases hs with
    | nil => simp at h
    | cons h0 hs' =>
      simp only [List.map_cons, List.cons.injEq] at h
      obtain ⟨h1, h2⟩ := h
      simp only [List.filterMap_cons, hfg r, h1]
      cases hg : g h0 with
      | none => exact ih hs' h2
      | some v => rw [ih hs' h2]

/-- **C2 (amended)**: starting from an empty output directory, splitting a
document `T` into an anchor section `s0` (no divider, non-empty content) and
`K` divider sections `rest`, writing everything with `FileWriter.writeSections`
(with references, no overwrite, anchor basename `base`) and reconstructing
from the anchor file yields a document that is the JS-trim of the anchor
content followed by exactly the `K` non-anchor section bodies, in original
order, each joined by exactly one blank line and with its divider line
canonicalized to the bare `---:` (the hash/timestamp annotation written to
disk is dropped again by the reconstructor, not preserved). This requires
the non-anchor section hashes to be pairwise distinct (otherwise a
`file_exists` skip loses sections, see the counterexample), the anchor
basename to differ from every section hash, no line of the (trimmed or
untrimmed) anchor content to match the reference pattern, and well-formed
timestamps. -/
theorem roundTrip_reconstructs (T base : Str) (tss : Nat → Str)
    (s0 : Sect) (rest : List Sect)
    (hsp : splitContent T = s0 :: rest)
    (h0d : s0.hasDivider = false)
    (h0c : s0.content ≠ [])
    (hbase : base ≠ [])
    (hrefs0 : ∀ l ∈ splitNL s0.content, parseAnnotatedDivider l = none)
    (hrefs1 : ∀ l ∈ splitNL (jsTrim s0.content), parseAnnotatedDivider l = none)
    (hts : ∀ i, matchTimestamp (tss i) = some [] ∧ '\n' ∉ tss i)
    (hnodup : (rest.map sectHash).Nodup)
    (hbasedist : ∀ s ∈ rest, base ≠ sectHash s) :
    reconstructDocument
      (writeSections [] (s0 :: rest) (some base) false true tss).2
      (base ++ str ".md") =
    .ok (joinBlank (jsTrim s0.content :: rest.map fun s =>
      str "---:" ++ s.content.drop (s.originalDividerLine.getD []).length)) := by
  have hT : T ≠ [] := by
    intro h0
    rw [h0] at hsp
    simp [splitContent] at hsp
  have hlen0 : 0 < (splitContent T).length := by rw [hsp]; simp
  have hidx0 : s0.index = 0 := by
    have h := splitContent_index T hT 0 hlen0
    rw [hsp] at h
    simpa using h
  have hdiv : ∀ s ∈ rest, DivSection s := by
    intro s hs_
    refine splitContent_tail_div T s ?_
    rw [hsp]
    simpa using hs_
  have hidxr : ∀ s ∈ rest, s.index ≠ 0 := by
    intro s hs_
    obtain ⟨j, hj, hjs⟩ := List.mem_iff_getElem.mp hs_
    have hk : j + 1 < (splitContent T).length := by
      rw [hsp]
      simpa using Nat.succ_lt_succ hj
    have h := splitContent_index T hT (j+1) hk
    rw [hsp, List.getD_cons_succ, List.getD_eq_getElem?_getD,
      List.getElem?_eq_getElem hj, Option.getD_some, hjs] at h
    omega
  have hbe : (base.isEmpty : Bool) = false := by
    simpa [List.isEmpty_iff] using hbase
  have hmod0 : modifyDividerInContent s0 (sectHash s0) (tss 0) = s0.content := by
    cases hodl : s0.originalDividerLine with
    | none => simp [modifyDividerInContent, hodl]
    | some d => simp [modifyDividerInContent, hodl, h0d]
  have hws0 : writeSection [] s0 (some base) false (tss 0) =
      .ok (⟨true, sectHash s0, base ++ str ".md", s0.index, s0.hasDivider⟩,
        [(base ++ str ".md", s0.content)]) := by
    simp [writeSection, generateSectionHash_ok s0 h0c, hidx0, h0d, hbe, hmod0,
      fsRead, fsWrite, Bind.bind, Except.bind]
  have hloop := writeLoop_spec rest 1 [(base ++ str ".md", s0.content)] (some base) tss
    hdiv hnodup (fun s hs_ => by
      rw [fsRead_cons_ne _ _ _ _ (append_md_ne _ _ _ (hbasedist s hs_))]
      rfl)
  have hfull : writeSectionsLoop [] (s0 :: rest) (some base) false tss 0 =
      (⟨true, sectHash s0, base ++ str ".md", s0.index, s0.hasDivider⟩ ::
        rest.map (fun s => ⟨true, sectHash s, sectHash s ++ str ".md",
          s.index, s.hasDivider⟩),
       expectedWrites rest tss 1 ++ [(base ++ str ".md", s0.content)]) := by
    simp only [writeSectionsLoop, hws0, hloop]
  have hfind : ((⟨true, sectHash s0, base ++ str ".md", s0.index, s0.hasDivider⟩ ::
      rest.map (fun s => ⟨true, sectHash s, sectHash s ++ str ".md",
        s.index, s.hasDivider⟩) : List WriteResult)).find?
      (fun r => r.success && r.index == 0 && !r.hasDivider) =
      some ⟨true, sectHash s0, base ++ str ".md", s0.index, s0.hasDivider⟩ :=
    List.find?_cons_of_pos _ (by simp [hidx0, h0d])
  have hothers : ((⟨true, sectHash s0, base ++ str ".md", s0.index, s0.hasDivider⟩ ::
      rest.map (fun s => ⟨true, sectHash s, sectHash s ++ str ".md",
        s.index, s.hasDivider⟩) : List WriteResult)).filter
      (fun r => r.success && r.index != 0) =
      rest.map (fun s => ⟨true, sectHash s, sectHash s ++ str ".md",
        s.index, s.hasDivider⟩) := by
    rw [List.filter_cons_of_neg (by simp [hidx0])]
    refine List.filter_eq_self.mpr ?_
    intro r hr
    obtain ⟨s, hs_, rfl⟩ := List.mem_map.mp hr
    simp [hidxr s hs_]
  have hreadanchor : fsRead (expectedWrites rest tss 1 ++
      [(base ++ str ".md", s0.content)]) (base ++ str ".md") = some s0.content := by
    have hnames : ∀ e ∈ expectedWrites rest tss 1, e.1 ≠ base ++ str ".md" := by
      intro e he
      obtain ⟨s', hs', he'⟩ := expectedWrites_name rest tss 1 e he
      rw [he']
      exact append_md_ne _ _ _ (fun h0 => (hbasedist s' hs') h0.symm)
    rw [fsRead_append_none _ _ _ hnames, fsRead_cons_self]
  simp only [writeSections, hfull, if_true]
  cases rest with
  | nil =>
    simp only [List.map_nil] at hfind hothers
    simp only [addReferencesToFirstFile, List.map_nil, hfind, hothers,
      List.isEmpty_nil, if_true]
    simp only [reconstructDocument, hreadanchor]
    have hfr : firstRefIndex (splitNL s0.content) 0 = none :=
      firstRefIndex_none_of_all _ 0 hrefs0
    simp only [extractReferences, hfr]
    rfl
  | cons s1 rest' =>
    simp only [addReferencesToFirstFile, hfind, hothers]
    rw [if_neg (by simp)]
    simp only [hreadanchor]
    have hreflines : ((s1 :: rest').map (fun s =>
        (⟨true, sectHash s, sectHash s ++ str ".md", s.index, s.hasDivider⟩ :
          WriteResult))).map
        (fun r => str "---: " ++ nodeBasenameExt r.filename (str ".md")) =
        ((s1 :: rest').map sectHash).map (fun h => str "---: " ++ h) := by
      rw [List.map_map, List.map_map]
      refine List.map_congr_left ?_
      intro s hs_
      show str "---: " ++ nodeBasenameExt (sectHash s ++ str ".md") (str ".md") =
        str "---: " ++ sectHash s
      rw [nodeBasename_hash (sectHash s) (generateHash_ne_nil _)]
    rw [hreflines]
    set U := jsTrim s0.content ++ str "\n\n" ++
      joinNL (((s1 :: rest').map sectHash).map fun h => str "---: " ++ h) ++ str "\n"
      with hU
    have hAlast : jsTrim s0.content = [] ∨
        ∃ c, (jsTrim s0.content).getLast? = some c ∧ jsWhitespace c = false := by
      cases hA0 : (jsTrim s0.content).getLast? with
      | none => exact Or.inl (List.getLast?_eq_none_iff.mp hA0)
      | some c => exact Or.inr ⟨c, rfl, jsTrim_getLast_not_ws _ c hA0⟩
    have hgood : ∀ h ∈ (s1 :: rest').map sectHash,
        h ≠ [] ∧ ∀ c ∈ h, goodHashChar c = true := by
      intro h hh
      obtain ⟨s, hs_, rfl⟩ := List.mem_map.mp hh
      exact ⟨generateHash_ne_nil _, generateHash_good _⟩
    obtain ⟨hbc, hhashes⟩ := extractReferences_updated_anchor (jsTrim s0.content)
      ((s1 :: rest').map sectHash) hrefs1 (jsTrim_idem s0.content) hAlast
      (by simp) hgood
    rw [← hU] at hbc hhashes
    set FSW2 := fsWrite (expectedWrites (s1 :: rest') tss 1 ++
      [(base ++ str ".md", s0.content)]) (base ++ str ".md") U with hFSW2
    have hrne : (extractReferences U).references ≠ [] := by
      intro h0
      rw [h0] at hhashes
      simp at hhashes
    have hrd2 : fsRead FSW2 (base ++ str ".md") = some U := by
      rw [hFSW2]
      exact fsRead_cons_self _ _ _
    simp only [reconstructDocument, hrd2]
    rw [if_neg (by simpa [List.isEmpty_iff] using hrne)]
    simp only [combineReferencedFiles, hbc]
    have hfm : (extractReferences U).references.filterMap (fun r =>
        (fsRead FSW2 (r.hash ++ str ".md")).map cleanReferencedContent) =
        (s1 :: rest').map (fun s =>
          str "---:" ++ s.content.drop (s.originalDividerLine.getD []).length) := by
      refine (filterMap_via_hashes _
        (fun h => (fsRead FSW2 (h ++ str ".md")).map cleanReferencedContent)
        (fun r => rfl) _ _ hhashes).trans ?_
      rw [List.filterMap_map]
      refine filterMap_eq_map_of_some _ _ _ ?_
      intro s hs_
      show (fsRead FSW2 (sectHash s ++ str ".md")).map cleanReferencedContent = some _
      obtain ⟨j, hj, hjs⟩ := List.mem_iff_getElem.mp hs_
      obtain ⟨hdv, d, t, hodl, hd, hsps⟩ := hdiv s hs_
      have hr1 : fsRead FSW2 (sectHash s ++ str ".md") =
          fsRead (expectedWrites (s1 :: rest') tss 1 ++
            [(base ++ str ".md", s0.content)]) (sectHash s ++ str ".md") := by
        rw [hFSW2]
        exact fsRead_cons_ne _ _ _ _ (append_md_ne _ _ _ (hbasedist s hs_))
      have hr2 := expectedWrites_read (s1 :: rest') tss 1
        [(base ++ str ".md", s0.content)] j hj hnodup
      have hgd : (s1 :: rest').getD j default = s := by
        rw [List.getD_eq_getElem?_getD, List.getElem?_eq_getElem hj,
          Option.getD_some, hjs]
      rw [hgd] at hr2
      rw [hr1, hr2, Option.map_some']
      rw [modify_of_div s d (sectHash s) (tss (1+j)) t hdv hodl hd hsps]
      rw [clean_of_written s d t (sectHash s) (tss (1+j)) hsps
        (generateHash_ne_nil _) (generateHash_good _) (hts (1+j)).1 (hts (1+j)).2]
      rw [hodl]
      rfl
    rw [hfm]


/-- **C2 witness**: the amended round-trip theorem applied at the concrete
document `"Hello\nWorld\n---:\nAlpha\n---:\nBeta"` (anchor plus two divider
sections with distinct bodies), anchor basename `doc`, fixed timestamp
`12:00:00 2024/01/02`. -/
theorem roundTrip_reconstructs_witness :
    reconstructDocument
      (writeSections []
        (⟨0, str "Hello\nWorld", false, none, 1, 2⟩ ::
          [⟨1, str "---:\nAlpha", true, some (str "---:"), 3, 4⟩,
           ⟨2, str "---:\nBeta", true, some (str "---:"), 5, 6⟩])
        (some (str "doc")) false true (fun _ => str "12:00:00 2024/01/02")).2
      (str "doc" ++ str ".md") =
    .ok (joinBlank (jsTrim (str "Hello\nWorld") ::
      ([⟨1, str "---:\nAlpha", true, some (str "---:"), 3, 4⟩,
        ⟨2, str "---:\nBeta", true, some (str "---:"), 5, 6⟩] : List Sect).map
        fun s => str "---:" ++ s.content.drop (s.originalDividerLine.getD []).length)) :=
  roundTrip_reconstructs (str "Hello\nWorld\n---:\nAlpha\n---:\nBeta") (str "doc")
    (fun _ => str "12:00:00 2024/01/02")
    ⟨0, str "Hello\nWorld", false, none, 1, 2⟩
    [⟨1, str "---:\nAlpha", true, some (str "---:"), 3, 4⟩,
     ⟨2, str "---:\nBeta", true, some (str "---:"), 5, 6⟩]
    (by decide) (by decide) (by decide) (by decide) (by decide) (by decide)
    (fun i => ⟨(by decide : matchTimestamp (str "12:00:00 2024/01/02") = some []),
      (by decide : '\n' ∉ str "12:00:00 2024/01/02")⟩) (by decide) (by decide)

end AugmentVibe
